import Mathlib

/-!
Verification model of the command-block IR core (cmd_ir/core.py).

The Python source is shallowly embedded: each modelled definition mirrors a
function or method of core.py, with Python assertions rendered as
`Except Err` failures.  The concrete instruction set lives outside core.py
and is only visible through a small capability contract (terminator flag,
inline-copyable flag, the Branch/Return/SetScore/stack-frame shapes that
core.py constructs); that contract is modelled from the specification.
-/

namespace CmdIr

/-- Failure cases, one per Python assertion or exception site in the
modelled code. -/
inductive Err where
  | blockTerminated
  | stackTipNotZero
  | stackBaseWrong
  | stackCollision
  | indexError
  | literalOnByref
  | argCountMismatch
  | argTypeMismatch
  | duplicateDefinition
  | unfinishedUnit
  | signatureMismatch
  | notAFunction
  | emptyLink
  | alreadyFinished
  | unfinishedFunction
  | versionMismatch
  | typeErrorNotIterable
  | externNotReferencable
deriving DecidableEq, Repr

/-- Modelled from the spec: variable value kinds used by core.py via the
variables module (32-bit int, Q10 fixed point, nbt-backed). Only the
identity of the type matters to the core. -/
inductive VarType where
  | i32
  | q10
  | nbt
deriving DecidableEq, Repr

/-- Modelled from the spec: parameter pass modes, by-value or by-reference. -/
inductive PassType where
  | byval
  | byref
deriving DecidableEq, Repr

/-- Modelled from the spec: the instruction capability contract.  Every
instruction exposes whether it is terminator-like and inline-copyable;
core.py itself constructs Branch, Return rewrites, SetScore copies and the
stack-frame push/pop pair.  Blocks and variables are referenced by name.
`other` stands for any instruction of the surrounding instruction set,
carrying its two capability flags. -/
inductive Insn where
  | branch (target : String)
  | ret
  | pushNewStackFrame (types : List VarType)
  | popStack
  | runDeferredCallback
  | setScore (dest : String) (src : String)
  | other (id : Nat) (isTerm : Bool) (copyable : Bool)
deriving DecidableEq, Repr

/-- Modelled from the spec: terminator semantics (branch and return are the
terminator-like instructions; stack and copy instructions are not). -/
def Insn.terminator : Insn → Bool
  | .branch _ => true
  | .ret => true
  | .other _ t _ => t
  | _ => false

/-- Modelled from the spec: the inline-copyable capability flag. -/
def Insn.inline_copyable : Insn → Bool
  | .other _ _ c => c
  | _ => true

/-- BasicBlock state (core.py lines 823-852): a named instruction sequence
with the `defined`, `is_function` and `force` flags and a usage counter.
The owning function is represented by the name of its exit block, which is
all of the owner that `validate_insn` consults. -/
structure BasicBlock where
  name : String
  insns : List Insn
  force : Bool
  defined : Bool
  is_function : Bool
  use : Nat
deriving DecidableEq, Repr

/-- BasicBlock.is_terminated (core.py lines 857-863). -/
def BasicBlock.is_terminated (b : BasicBlock) : Bool :=
  if b.is_function then true
  else match b.insns.getLast? with
    | none => false
    | some i => i.terminator

/-- BasicBlock.validate_insn (core.py lines 865-872): reject an append to a
terminated block unless forced; rewrite a Return into a Branch to the
owning function exit SuperBlock. -/
def BasicBlock.validate_insn (exitName : String) (b : BasicBlock) (i : Insn) :
    Except Err Insn :=
  if !b.force && !b.insns.isEmpty &&
      ((b.insns.getLast?).elim false Insn.terminator) then
    .error .blockTerminated
  else match i with
    | .ret => .ok (.branch exitName)
    | _ => .ok i

/-- InstructionSeq.add specialised to blocks (core.py lines 103-115):
validate, then append.  Name binding and the activation hook do not affect
the instruction list and are omitted. -/
def BasicBlock.add (exitName : String) (b : BasicBlock) (i : Insn) :
    Except Err BasicBlock := do
  let j ← b.validate_insn exitName i
  .ok { b with insns := b.insns ++ [j] }

/-- Monadic fold of `add` over a list of instructions. -/
def BasicBlock.addAll (exitName : String) (b : BasicBlock) (is : List Insn) :
    Except Err BasicBlock :=
  is.foldlM (fun acc i => acc.add exitName i) b

/-- C2: for every BasicBlock whose instruction list is non-empty and whose
last instruction has terminator semantics, adding any further instruction
fails unless the force flag is set; and whenever adding a Return succeeds,
what is stored is not a Return but a Branch to the owning function exit
block. -/
theorem basicBlock_add_terminated_and_return_rewrite
    (b : BasicBlock) (exitName : String) (i : Insn) :
    (b.force = false → (∃ j, b.insns.getLast? = some j ∧ j.terminator = true) →
      b.add exitName i = .error .blockTerminated)
    ∧ (∀ b2, b.add exitName .ret = .ok b2 →
        b2.insns = b.insns ++ [.branch exitName]) := by
  constructor
  · rintro hf ⟨j, hj, hterm⟩
    have hne : b.insns.isEmpty = false := by
      cases h : b.insns with
      | nil => simp [h] at hj
      | cons a l => simp [List.isEmpty]
    simp [BasicBlock.add, BasicBlock.validate_insn, hf, hne, hj, hterm,
          Bind.bind, Except.bind]
  · intro b2 h
    by_cases hblock : !b.force && !b.insns.isEmpty &&
        ((b.insns.getLast?).elim false Insn.terminator)
    · simp [BasicBlock.add, BasicBlock.validate_insn, hblock,
            Bind.bind, Except.bind] at h
    · simp [BasicBlock.add, BasicBlock.validate_insn, hblock,
            Bind.bind, Except.bind] at h
      rw [← h]

/-- Witness for C2 at concrete inputs: a block ending in a branch rejects a
further instruction, and an empty block stores a Branch-to-exit when a
Return is added. -/
theorem basicBlock_add_witness :
    (BasicBlock.add "exitblk"
        ⟨"b", [Insn.branch "e"], false, true, false, 0⟩
        (.other 0 false true) = .error .blockTerminated)
    ∧ (⟨"b", [], false, true, false, 0⟩ : BasicBlock).add "exitblk" .ret =
        .ok ⟨"b", [Insn.branch "exitblk"], false, true, false, 0⟩ := by
  constructor
  · exact (basicBlock_add_terminated_and_return_rewrite
      ⟨"b", [Insn.branch "e"], false, true, false, 0⟩ "exitblk"
      (.other 0 false true)).1 rfl ⟨Insn.branch "e", rfl, rfl⟩
  · rfl

/-- SuperBlock usage state (core.py lines 890-923): the `_use` counter
inherited from BasicBlock, the `_clear` flag set by `superclear`, and the
`is_entry` flag. -/
structure SuperBlockState where
  use : Nat
  cleared : Bool
  is_entry : Bool
deriving DecidableEq, Repr

/-- A fresh SuperBlock as produced by SuperBlock.__init__ (core.py lines
892-896): zero recorded usages, not cleared. -/
def SuperBlockState.fresh (e : Bool) : SuperBlockState :=
  ⟨0, false, e⟩

/-- SuperBlock.usage (core.py lines 904-906): delegate to the BasicBlock
counter only once cleared. -/
def SuperBlockState.usage (s : SuperBlockState) : SuperBlockState :=
  if s.cleared then { s with use := s.use + 1 } else s

/-- SuperBlock.use_count (core.py lines 908-913): pinned to 2 until
cleared; afterwards the BasicBlock counter, plus one for an entry block. -/
def SuperBlockState.use_count (s : SuperBlockState) : Nat :=
  if s.cleared then
    if s.is_entry then 1 + s.use else s.use
  else 2

/-- SuperBlock.superclear (core.py lines 915-916). -/
def SuperBlockState.superclear (s : SuperBlockState) : SuperBlockState :=
  { s with cleared := true }

/-- Iterated usage() calls. -/
def SuperBlockState.applyUsages (s : SuperBlockState) : Nat → SuperBlockState
  | 0 => s
  | n + 1 => (s.applyUsages n).usage

theorem applyUsages_cleared (s : SuperBlockState) (n : Nat) :
    (s.applyUsages n).cleared = s.cleared := by
  induction n with
  | zero => rfl
  | succ n ih =>
    simp [SuperBlockState.applyUsages, SuperBlockState.usage]
    by_cases h : (s.applyUsages n).cleared
    · simpa [h] using ih
    · simpa [h] using ih

theorem applyUsages_is_entry (s : SuperBlockState) (n : Nat) :
    (s.applyUsages n).is_entry = s.is_entry := by
  induction n with
  | zero => rfl
  | succ n ih =>
    simp [SuperBlockState.applyUsages, SuperBlockState.usage]
    by_cases h : (s.applyUsages n).cleared
    · simpa [h] using ih
    · simpa [h] using ih

theorem applyUsages_use_of_cleared (s : SuperBlockState) (n : Nat)
    (h : s.cleared = true) : (s.applyUsages n).use = s.use + n := by
  induction n with
  | zero => rfl
  | succ n ih =>
    have hc : (s.applyUsages n).cleared = true := by
      rw [applyUsages_cleared]; exact h
    simp [SuperBlockState.applyUsages, SuperBlockState.usage, hc, ih,
          Nat.add_assoc]

theorem applyUsages_use_of_not_cleared (s : SuperBlockState) (n : Nat)
    (h : s.cleared = false) : (s.applyUsages n).use = s.use := by
  induction n with
  | zero => rfl
  | succ n ih =>
    have hc : (s.applyUsages n).cleared = false := by
      rw [applyUsages_cleared]; exact h
    simp [SuperBlockState.applyUsages, SuperBlockState.usage, hc, ih]

/-- C7 counterexample: the claim predicts that after superclear() the
use_count of any SuperBlock equals the number of usage() calls recorded
since, for the entry SuperBlock as well; but a freshly cleared entry
SuperBlock with zero usage() calls reports use_count 1, not 0. -/
theorem superBlock_entry_count_counterexample :
    ((SuperBlockState.fresh true).superclear.applyUsages 0).use_count = 1 ∧
    (1 : Nat) ≠ 0 := by
  constructor
  · rfl
  · decide

/-- C7 amended: before superclear() the use_count is pinned to 2 no matter
how many usage() calls are recorded and usage() leaves the counter
untouched; after superclear(), the exit SuperBlock reports exactly the
number of usage() calls recorded since, while the entry SuperBlock reports
one more than that number (its global name doubles as the function name,
accounting for the extra pinned use). -/
theorem superBlock_use_count_amended (e : Bool) (m n : Nat) :
    ((SuperBlockState.fresh e).applyUsages m).use_count = 2 ∧
    ((SuperBlockState.fresh e).applyUsages m).use = 0 ∧
    (((SuperBlockState.fresh e).applyUsages m).superclear.applyUsages
        n).use_count = (if e then 1 + n else n) := by
  have h1 : ((SuperBlockState.fresh e).applyUsages m).cleared = false :=
    applyUsages_cleared _ m
  have h2 : ((SuperBlockState.fresh e).applyUsages m).use = 0 :=
    applyUsages_use_of_not_cleared _ m rfl
  refine ⟨?_, h2, ?_⟩
  · simp [SuperBlockState.use_count, h1]
  · have hc : (((SuperBlockState.fresh e).applyUsages
        m).superclear).cleared = true := rfl
    have hu : (((SuperBlockState.fresh e).applyUsages
        m).superclear).use = 0 := h2
    have he : (((SuperBlockState.fresh e).applyUsages
        m).superclear).is_entry = e := applyUsages_is_entry _ m
    have h3 := applyUsages_use_of_cleared
      (((SuperBlockState.fresh e).applyUsages m).superclear) n hc
    have h4 := applyUsages_cleared
      (((SuperBlockState.fresh e).applyUsages m).superclear) n
    have h5 := applyUsages_is_entry
      (((SuperBlockState.fresh e).applyUsages m).superclear) n
    rw [hc] at h4
    rw [he] at h5
    rw [hu] at h3
    simp [SuperBlockState.use_count, h4, h5, h3]

/-- One frame of name bindings, in insertion order (the OrderedDict that
Scope extends). -/
abbrev Frame (α : Type) := List (String × α)

/-- Membership of a key in a single frame. -/
def frameHas (f : Frame α) (n : String) : Bool :=
  f.any (fun e => e.1 == n)

/-- Lookup in a single frame. -/
def frameFind (f : Frame α) (n : String) : Option α :=
  (f.find? (fun e => e.1 == n)).map (·.2)

/-- Scope.__setitem__ on the local frame (core.py lines 175-177): an
OrderedDict write keeps the position of an existing key and appends a new
one.  The inverse map is not modelled (no claim consults it). -/
def frameSet (f : Frame α) (n : String) (v : α) : Frame α :=
  if frameHas f n then
    f.map (fun e => if e.1 == n then (n, v) else e)
  else f ++ [(n, v)]

/-- Scope (core.py lines 168-211): a local frame plus the chain of ancestor
frames reached through the parent links, nearest first. -/
structure ScopeM (α : Type) where
  locals : Frame α
  ancestors : List (Frame α)
deriving Repr

/-- Chain lookup over a list of frames, nearest frame first. -/
def chainFind (n : String) : List (Frame α) → Option α
  | [] => none
  | f :: rest =>
    match frameFind f n with
    | some v => some v
    | none => chainFind n rest

/-- Scope.__contains__ (core.py lines 184-189): local membership, else the
parent chain. -/
def ScopeM.containsName (s : ScopeM α) (n : String) : Bool :=
  frameHas s.locals n ||
    (s.ancestors.any (fun f => frameHas f n))

/-- Scope.__getitem__ with __missing__ (core.py lines 179-182): local
lookup, falling through the parent chain. -/
def ScopeM.getName (s : ScopeM α) (n : String) : Option α :=
  chainFind n (s.locals :: s.ancestors)

/-- Scope.get_or_create (core.py lines 191-196): if the name is present
anywhere in the chain, return the found value; otherwise invoke the
factory and store its result in the local frame. -/
def ScopeM.get_or_create (s : ScopeM α) (n : String) (factory : String → α) :
    Option α × ScopeM α :=
  if s.containsName n then (s.getName n, s)
  else
    let v := factory n
    (some v, { s with locals := frameSet s.locals n v })

theorem frameHas_iff_frameFind (f : Frame α) (n : String) :
    frameHas f n = (frameFind f n).isSome := by
  induction f with
  | nil => rfl
  | cons e rest ih =>
    by_cases h : e.1 == n
    · simp [frameHas, frameFind, h]
    · simp only [frameHas, frameFind, List.any_cons, List.find?] at *
      simp [h, ih]

theorem containsName_iff_getName (s : ScopeM α) (n : String) :
    s.containsName n = (s.getName n).isSome := by
  show (frameHas s.locals n || _) = _
  rw [frameHas_iff_frameFind]
  unfold ScopeM.getName chainFind
  cases hf : frameFind s.locals n with
  | some v => simp
  | none =>
    simp only [Option.isSome_none, Bool.false_or]
    induction s.ancestors with
    | nil => rfl
    | cons f rest ih =>
      simp only [List.any_cons]
      rw [frameHas_iff_frameFind]
      unfold chainFind
      cases hg : frameFind f n with
      | some v => simp
      | none => simpa using ih

/-- C9: if a name is absent from the local frame but present somewhere in
the parent chain, get_or_create returns the value found via the chain,
gives the same result for every factory (the factory is never invoked),
and leaves the scope, in particular its local frame, unchanged; when the
name is absent from the whole chain the factory result is stored in the
local frame and returned. -/
theorem scope_get_or_create_spec (s : ScopeM α) (n : String)
    (factory g : String → α) :
    (frameHas s.locals n = false → s.containsName n = true →
      s.get_or_create n factory = (chainFind n s.ancestors, s) ∧
      (chainFind n s.ancestors).isSome ∧
      s.get_or_create n factory = s.get_or_create n g)
    ∧ (s.containsName n = false →
      s.get_or_create n factory =
        (some (factory n), { s with locals := s.locals ++ [(n, factory n)] })) := by
  constructor
  · intro hl hc
    have hf : frameFind s.locals n = none := by
      have := frameHas_iff_frameFind s.locals n
      rw [hl] at this
      cases h : frameFind s.locals n with
      | none => rfl
      | some v => rw [h] at this; simp at this
    have hget : s.getName n = chainFind n s.ancestors := by
      simp [ScopeM.getName, chainFind, hf]
    refine ⟨?_, ?_, ?_⟩
    · simp [ScopeM.get_or_create, hc, hget]
    · rw [← hget, ← containsName_iff_getName, hc]
    · simp [ScopeM.get_or_create, hc]
  · intro hc
    have hl : frameHas s.locals n = false := by
      have : s.containsName n = (frameHas s.locals n || _) := rfl
      rw [hc] at this
      exact (Bool.or_eq_false_iff.mp this.symm).1
    simp [ScopeM.get_or_create, hc, frameSet, hl]

/-- Witness for C9 at concrete inputs: a scope whose local frame lacks the
name but whose parent holds it returns the parent value unchanged, and a
scope lacking the name entirely stores the factory value locally. -/
theorem scope_get_or_create_witness :
    (frameHas ([("a", 1)] : Frame Nat) "x" = false ∧
      (ScopeM.containsName ⟨[("a", 1)], [[("x", 7)]]⟩ "x" = true) ∧
      ScopeM.get_or_create (⟨[("a", 1)], [[("x", 7)]]⟩ : ScopeM Nat) "x"
        (fun _ => 9) = (some 7, ⟨[("a", 1)], [[("x", 7)]]⟩))
    ∧ (ScopeM.containsName (⟨[("a", 1)], [[("b", 2)]]⟩ : ScopeM Nat) "x"
        = false ∧
      ScopeM.get_or_create (⟨[("a", 1)], [[("b", 2)]]⟩ : ScopeM Nat) "x"
        (fun _ => 9) = (some 9, ⟨[("a", 1), ("x", 9)], [[("b", 2)]]⟩)) := by
  refine ⟨⟨by decide, by decide, ?_⟩, by decide, ?_⟩
  · exact ((scope_get_or_create_spec (⟨[("a", 1)], [[("x", 7)]]⟩ : ScopeM Nat)
      "x" (fun _ => 9) (fun _ => 9)).1 (by decide) (by decide)).1
  · exact (scope_get_or_create_spec (⟨[("a", 1)], [[("b", 2)]]⟩ : ScopeM Nat)
      "x" (fun _ => 9) (fun _ => 9)).2 (by decide)

theorem sorted_mem_le_getLast (l : List Nat) :
    l.Sorted (· ≤ ·) → ∀ x ∈ l, ∀ m, l.getLast? = some m → x ≤ m := by
  induction l with
  | nil => intro _ x hx; cases hx
  | cons a t ih =>
    intro hs x hx m hm
    rw [List.sorted_cons] at hs
    cases t with
    | nil =>
      simp at hx hm
      omega
    | cons b u =>
      rw [List.getLast?_cons_cons] at hm
      rcases List.mem_cons.mp hx with h | h
      · subst h
        have hmem : m ∈ b :: u := by
          have hne : (b :: u) ≠ ([] : List Nat) := by simp
          rw [List.getLast?_eq_getLast _ hne] at hm
          have : m = (b :: u).getLast hne := by
            exact (Option.some_injective _ hm).symm
          rw [this]
          exact List.getLast_mem hne
        exact hs.1 m hmem
      · exact ih hs.2 x h m hm

theorem nodup_of_toFinset_card (l : List Nat)
    (h : l.toFinset.card = l.length) : l.Nodup := by
  rw [List.card_toFinset] at h
  exact List.dedup_eq_self.mp ((List.dedup_sublist l).eq_of_length h)

/-- The combinatorial heart of the stack-layout invariant: a list sorted
ascending is exactly 0..N-1 precisely when its first element is 0, its
last element is N-1 and its elements are pairwise distinct. -/
theorem sorted_dense_iff (l : List Nat) (hs : l.Sorted (· ≤ ·))
    (hne : l ≠ []) :
    (l.head? = some 0 ∧ l.getLast? = some (l.length - 1) ∧
      l.toFinset.card = l.length) ↔ l = List.range l.length := by
  constructor
  · rintro ⟨_, hlast, hcard⟩
    have hnd := nodup_of_toFinset_card l hcard
    have hlen : 0 < l.length := List.length_pos.mpr hne
    have hsub : l.toFinset ⊆ Finset.range l.length := by
      intro x hx
      rw [List.mem_toFinset] at hx
      rw [Finset.mem_range]
      have := sorted_mem_le_getLast l hs x hx (l.length - 1) hlast
      omega
    have hfeq : l.toFinset = Finset.range l.length :=
      Finset.eq_of_subset_of_card_le hsub
        (by rw [hcard, Finset.card_range])
    have hperm : l.Perm (List.range l.length) := by
      apply List.perm_of_nodup_nodup_toFinset_eq hnd (List.nodup_range _)
      rw [hfeq]
      ext x
      simp
    exact List.eq_of_perm_of_sorted hperm hs (List.sorted_le_range _)
  · intro h
    rw [h]
    cases hn : l.length with
    | zero =>
      rw [hn] at h
      simp at h
      exact absurd h hne
    | succ m =>
      refine ⟨?_, ?_, ?_⟩
      · simp [List.range_succ_eq_map]
      · rw [List.range_succ, List.getLast?_concat]
        simp
      · rw [List.toFinset_card_of_nodup (List.nodup_range _)]

/-- A stack-resident local as seen by add_entry_exit: the NbtOffsetVariable
proxy of a LocalVariable, carrying its frame offset and value type. -/
structure LocalVar where
  offset : Nat
  vtype : VarType
deriving DecidableEq, Repr

/-- The comparison key used by the sort in add_entry_exit (core.py line
793: key is the offset).  Python `sorted` is a stable ascending sort; a
stable insertion sort models it. -/
def stackLe (a b : LocalVar) : Prop :=
  a.offset ≤ b.offset

instance : DecidableRel stackLe :=
  fun a b => Nat.decLe a.offset b.offset

instance : IsTotal LocalVar stackLe :=
  ⟨fun a b => Nat.le_total a.offset b.offset⟩

instance : IsTrans LocalVar stackLe :=
  ⟨fun _ _ _ h1 h2 => Nat.le_trans h1 h2⟩

/-- The parts of IRFunction state that add_entry_exit (core.py lines
787-807) reads and writes: the two SuperBlocks as instruction sequences,
the stack-resident locals found in the function scope (in scope order),
the queued post-exit instructions, and the names of the user blocks. -/
structure FnModel where
  entry : BasicBlock
  exitb : BasicBlock
  stackLocals : List LocalVar
  post_exit_insns : List Insn
  userBlockNames : List String
deriving DecidableEq, Repr

/-- The sorted-by-offset list that add_entry_exit computes (core.py lines
790-793). -/
def sortedStackVars (f : FnModel) : List LocalVar :=
  f.stackLocals.insertionSort stackLe

/-- The offsets of the stack-resident locals, sorted ascending. -/
def offsetsSorted (f : FnModel) : List Nat :=
  (sortedStackVars f).map LocalVar.offset

/-- IRFunction.add_entry_exit (core.py lines 787-807): sort the
stack-resident locals by offset; if any exist, check the tip offset is 0,
the base offset is N-1 and the offsets are pairwise distinct, then append
a stack-frame push (slot types in reverse order) to the entry SuperBlock
and a pop to the exit SuperBlock; append the queued post-exit instructions
to the exit SuperBlock; finally append an unconditional branch to the
first user block to the entry SuperBlock. -/
def FnModel.add_entry_exit (f : FnModel) : Except Err (FnModel × List LocalVar) := do
  let vars := sortedStackVars f
  let pair ←
    if vars.isEmpty then
      Except.ok (f.entry, f.exitb)
    else
      if vars.head?.map LocalVar.offset ≠ some 0 then
        Except.error .stackTipNotZero
      else if vars.getLast?.map LocalVar.offset ≠ some (vars.length - 1) then
        Except.error .stackBaseWrong
      else if (vars.map LocalVar.offset).toFinset.card ≠ vars.length then
        Except.error .stackCollision
      else do
        let e ← f.entry.add f.exitb.name
          (.pushNewStackFrame (vars.reverse.map LocalVar.vtype))
        let x ← f.exitb.add f.exitb.name .popStack
        Except.ok (e, x)
  let x2 ← pair.2.addAll f.exitb.name f.post_exit_insns
  match f.userBlockNames.head? with
  | none => Except.error .indexError
  | some b0 => do
    let e2 ← pair.1.add f.exitb.name (.branch b0)
    Except.ok ({ f with entry := e2, exitb := x2 }, vars)

theorem sortedStackVars_length (f : FnModel) :
    (sortedStackVars f).length = f.stackLocals.length :=
  (List.perm_insertionSort stackLe f.stackLocals).length_eq

theorem offsetsSorted_sorted (f : FnModel) :
    (offsetsSorted f).Sorted (· ≤ ·) := by
  have hp := List.sorted_insertionSort stackLe f.stackLocals
  exact List.Pairwise.map LocalVar.offset (fun a b h => h) hp

theorem offsetsSorted_length (f : FnModel) :
    (offsetsSorted f).length = f.stackLocals.length := by
  rw [offsetsSorted, List.length_map, sortedStackVars_length]

/-- The three Python assertions of add_entry_exit hold exactly when the
sorted offsets are dense 0..N-1. -/
theorem add_entry_exit_checks_iff_dense (f : FnModel)
    (hne : f.stackLocals ≠ []) :
    let vars := sortedStackVars f
    ((vars.head?.map LocalVar.offset = some 0) ∧
     (vars.getLast?.map LocalVar.offset = some (vars.length - 1)) ∧
     ((vars.map LocalVar.offset).toFinset.card = vars.length)) ↔
    offsetsSorted f = List.range f.stackLocals.length := by
  intro vars
  have hlist : offsetsSorted f = vars.map LocalVar.offset := rfl
  have hlen2 : (vars.map LocalVar.offset).length = vars.length :=
    List.length_map _ _
  have hlenf : vars.length = f.stackLocals.length := sortedStackVars_length f
  have hnev : (vars.map LocalVar.offset) ≠ [] := by
    have : (vars.map LocalVar.offset).length ≠ 0 := by
      rw [hlen2, hlenf]
      exact fun h => hne (List.length_eq_zero.mp h)
    exact fun h => this (by rw [h]; rfl)
  have hiff := sorted_dense_iff (vars.map LocalVar.offset)
    (offsetsSorted_sorted f) hnev
  rw [List.head?_map, List.getLast?_map, hlen2] at hiff
  rw [hlist, ← hlenf]
  exact hiff

theorem sortedStackVars_isEmpty_false (f : FnModel)
    (hne : f.stackLocals ≠ []) : (sortedStackVars f).isEmpty = false := by
  have hlen := sortedStackVars_length f
  cases hsv : sortedStackVars f with
  | nil =>
    rw [hsv] at hlen
    exact absurd (List.length_eq_zero.mp hlen.symm) hne
  | cons a l => rfl

/-- C1: with at least one stack-resident local, add_entry_exit succeeds
only if the offsets, sorted ascending, are exactly 0..N-1; any violation
of density (wrong tip, wrong base, or a duplicate offset) makes it fail. -/
theorem add_entry_exit_dense_layout (f : FnModel)
    (hne : f.stackLocals ≠ []) :
    ((f.add_entry_exit).isOk = true →
      offsetsSorted f = List.range f.stackLocals.length)
    ∧ (offsetsSorted f ≠ List.range f.stackLocals.length →
      (f.add_entry_exit).isOk = false) := by
  have hkey : offsetsSorted f ≠ List.range f.stackLocals.length →
      (f.add_entry_exit).isOk = false := by
    intro hnd
    have hves := sortedStackVars_isEmpty_false f hne
    have hiff := add_entry_exit_checks_iff_dense f hne
    simp only at hiff
    by_cases h1 : (sortedStackVars f).head?.map LocalVar.offset = some 0
    · by_cases h2 : (sortedStackVars f).getLast?.map LocalVar.offset =
          some ((sortedStackVars f).length - 1)
      · by_cases h3 : ((sortedStackVars f).map LocalVar.offset).toFinset.card
            = (sortedStackVars f).length
        · exact absurd (hiff.mp ⟨h1, h2, h3⟩) hnd
        · simp [FnModel.add_entry_exit, hves, h1, h2, h3,
                Bind.bind, Except.bind, Except.isOk, Except.toBool]
      · simp [FnModel.add_entry_exit, hves, h1, h2,
              Bind.bind, Except.bind, Except.isOk, Except.toBool]
    · simp [FnModel.add_entry_exit, hves, h1,
            Bind.bind, Except.bind, Except.isOk, Except.toBool]
  refine ⟨?_, hkey⟩
  intro hok
  by_contra hnd
  rw [hkey hnd] at hok
  cases hok

/-- A function whose single stack local sits at offset 1: the sorted
offsets are [1], not the dense [0]. -/
def exLayoutBad : FnModel :=
  ⟨⟨"0entry", [], false, true, false, 0⟩,
   ⟨"0ret", [], false, true, false, 0⟩,
   [⟨1, VarType.i32⟩], [], ["main"]⟩

/-- Witness for C1 at a concrete input: one local at offset 1 is not dense
and finalization fails on it. -/
theorem add_entry_exit_dense_layout_witness :
    exLayoutBad.stackLocals ≠ [] ∧
    offsetsSorted exLayoutBad ≠ List.range exLayoutBad.stackLocals.length ∧
    (exLayoutBad.add_entry_exit).isOk = false :=
  ⟨by decide, by decide,
   (add_entry_exit_dense_layout exLayoutBad (by decide)).2 (by decide)⟩

theorem add_ok_of_last_not_term (b : BasicBlock) (ex : String) (i : Insn)
    (h : (b.insns.getLast?).elim false Insn.terminator = false)
    (hi : i ≠ .ret) :
    b.add ex i = .ok { b with insns := b.insns ++ [i] } := by
  have hcond : (!b.force && !b.insns.isEmpty &&
      ((b.insns.getLast?).elim false Insn.terminator)) = false := by
    rw [h]
    simp
  cases i
  case ret => exact absurd rfl hi
  all_goals simp [BasicBlock.add, BasicBlock.validate_insn, hcond,
    Bind.bind, Except.bind]

theorem addAll_ok (ex : String) (is : List Insn) :
    ∀ b : BasicBlock,
    (b.insns.getLast?).elim false Insn.terminator = false →
    (∀ i ∈ is, i.terminator = false ∧ i ≠ .ret) →
    b.addAll ex is = .ok { b with insns := b.insns ++ is } := by
  induction is with
  | nil =>
    intro b _ _
    simp [BasicBlock.addAll, pure, Except.pure]
  | cons i rest ih =>
    intro b hb his
    have hi := his i (by simp)
    have hstep := add_ok_of_last_not_term b ex i hb hi.2
    have hlast2 : ((b.insns ++ [i]).getLast?).elim false Insn.terminator
        = false := by
      rw [List.getLast?_concat]
      exact hi.1
    have hrest := ih { b with insns := b.insns ++ [i] } hlast2
      (fun j hj => his j (by simp [hj]))
    simp only [BasicBlock.addAll] at hrest ⊢
    rw [List.foldlM_cons, hstep]
    simp only [Bind.bind, Except.bind]
    rw [hrest]
    simp

/-- C8 amended: add_entry_exit appends the frame push to the entry
SuperBlock after any instructions already present there (not prepended),
and a frame pop to the exit SuperBlock, exactly when at least one
stack-resident local exists; the push carries the slot types in reverse
(base-to-tip) order; and in every case the entry SuperBlock ends with an
unconditional branch to the first user block. -/
theorem add_entry_exit_append_layout (f : FnModel) (b0 : String)
    (rest : List String)
    (hb : f.userBlockNames = b0 :: rest)
    (he : (f.entry.insns.getLast?).elim false Insn.terminator = false)
    (hx : (f.exitb.insns.getLast?).elim false Insn.terminator = false)
    (hpost : ∀ i ∈ f.post_exit_insns, i.terminator = false ∧ i ≠ .ret)
    (hdense : f.stackLocals ≠ [] →
      offsetsSorted f = List.range f.stackLocals.length) :
    ∃ g, f.add_entry_exit = .ok (g, sortedStackVars f) ∧
      (f.stackLocals = [] →
        g.entry.insns = f.entry.insns ++ [.branch b0] ∧
        g.exitb.insns = f.exitb.insns ++ f.post_exit_insns) ∧
      (f.stackLocals ≠ [] →
        g.entry.insns = f.entry.insns ++
          [.pushNewStackFrame ((sortedStackVars f).reverse.map LocalVar.vtype),
            .branch b0] ∧
        g.exitb.insns = (f.exitb.insns ++ [.popStack]) ++ f.post_exit_insns) ∧
      g.entry.insns.getLast? = some (.branch b0) := by
  by_cases hsl : f.stackLocals = []
  · have hvars : sortedStackVars f = [] := by
      rw [sortedStackVars, hsl]
      rfl
    have hx2 := addAll_ok f.exitb.name f.post_exit_insns f.exitb hx hpost
    have he2 := add_ok_of_last_not_term f.entry f.exitb.name (.branch b0) he
      (by intro h; cases h)
    refine ⟨{ f with
        entry := { f.entry with insns := f.entry.insns ++ [.branch b0] },
        exitb := { f.exitb with
          insns := f.exitb.insns ++ f.post_exit_insns } }, ?_, ?_, ?_, ?_⟩
    · simp only [FnModel.add_entry_exit, hvars, List.isEmpty_nil, if_true,
        hb, List.head?_cons, Bind.bind, Except.bind]
      rw [hx2, he2]
    · intro _
      exact ⟨rfl, rfl⟩
    · intro h
      exact absurd hsl h
    · simp
  · obtain ⟨h1, h2, h3⟩ :=
      (add_entry_exit_checks_iff_dense f hsl).mpr (hdense hsl)
    have hve := sortedStackVars_isEmpty_false f hsl
    have he2 := add_ok_of_last_not_term f.entry f.exitb.name
      (.pushNewStackFrame ((sortedStackVars f).reverse.map LocalVar.vtype))
      he (by intro h; cases h)
    have hx2 := add_ok_of_last_not_term f.exitb f.exitb.name .popStack hx
      (by intro h; cases h)
    have hx3 := addAll_ok f.exitb.name f.post_exit_insns
      { f.exitb with insns := f.exitb.insns ++ [.popStack] }
      (by rw [List.getLast?_concat]; rfl) hpost
    have he3 := add_ok_of_last_not_term
      { f.entry with insns := f.entry.insns ++
        [.pushNewStackFrame ((sortedStackVars f).reverse.map LocalVar.vtype)] }
      f.exitb.name (.branch b0)
      (by rw [List.getLast?_concat]; rfl) (by intro h; cases h)
    refine ⟨{ f with
        entry := { f.entry with insns := f.entry.insns ++
          [.pushNewStackFrame ((sortedStackVars f).reverse.map LocalVar.vtype)]
          ++ [.branch b0] },
        exitb := { f.exitb with
          insns := (f.exitb.insns ++ [.popStack]) ++ f.post_exit_insns } },
        ?_, ?_, ?_, ?_⟩
    · simp only [FnModel.add_entry_exit, hve, Bool.false_eq_true, if_false,
        h1, h2, h3, ne_eq, not_true_eq_false, hb, List.head?_cons,
        Bind.bind, Except.bind]
      rw [he2, hx2]
      simp only [Except.bind]
      rw [hx3, he3]
    · intro h
      exact absurd h hsl
    · intro _
      constructor
      · simp
      · rfl
    · simp

/-- A function whose entry SuperBlock already holds an instruction (as an
advancement-revoke insertion leaves it, core.py lines 809-811) and which
has one stack-resident local. -/
def exEntryBusy : FnModel :=
  ⟨⟨"0entry", [.other 7 false true], false, true, false, 0⟩,
   ⟨"0ret", [], false, true, false, 0⟩,
   [⟨0, VarType.i32⟩], [], ["main"]⟩

/-- C8 counterexample: the claim says the frame push is prepended before
any instruction already present in the entry SuperBlock; on this input
finalization succeeds but the entry block keeps its pre-existing
instruction first and the push comes after it. -/
theorem add_entry_exit_not_prepended_counterexample :
    (∃ g, exEntryBusy.add_entry_exit =
      .ok (g, [⟨0, VarType.i32⟩]) ∧
      g.entry.insns = [.other 7 false true,
        .pushNewStackFrame [VarType.i32], .branch "main"] ∧
      g.entry.insns.head? ≠ some (.pushNewStackFrame [VarType.i32])) := by
  refine ⟨{ exEntryBusy with
      entry := ⟨"0entry", [.other 7 false true,
        .pushNewStackFrame [VarType.i32], .branch "main"], false, true,
        false, 0⟩,
      exitb := ⟨"0ret", [.popStack], false, true, false, 0⟩ }, ?_, rfl, ?_⟩
  · rfl
  · decide

/-- Witness for C8 at a concrete input: the amended layout theorem applies
to the busy-entry function and its entry block ends in the branch to the
first user block. -/
theorem add_entry_exit_append_layout_witness :
    ∃ g, exEntryBusy.add_entry_exit = .ok (g, sortedStackVars exEntryBusy) ∧
      g.entry.insns.getLast? = some (.branch "main") := by
  obtain ⟨g, hok, _, _, hlast⟩ := add_entry_exit_append_layout exEntryBusy
    "main" [] rfl rfl rfl (by intro i h; cases h) (by intro _; decide)
  exact ⟨g, hok, hlast⟩

/-- Modelled from the spec: an actual argument of an invoke or inline
call, either a literal numeric constant or a caller variable (identified
by its name in the caller, with its value type). -/
inductive ArgVal where
  | litInt (n : Int)
  | litFloat (numerator : Int)
  | avar (name : String) (t : VarType)
deriving DecidableEq, Repr

/-- VisibleFunction.validate_args, argument half (core.py lines 438-452):
a literal int is accepted only for an i32 parameter, a literal float only
for a q10 parameter, and a variable argument must match the parameter
type exactly; the count must match. -/
def argsValidate (params : List (VarType × PassType)) (args : List ArgVal) :
    Bool :=
  params.length == args.length &&
    (params.zip args).all fun pa =>
      match pa.2 with
      | .litInt _ => pa.1.1 == .i32
      | .litFloat _ => pa.1.1 == .q10
      | .avar _ t => t == pa.1.1

/-- How a callee ParameterVariable is bound during inlining. -/
inductive Binding where
  | toLit (a : ArgVal)
  | toCopyVar (copyName : String)
  | toCallerVar (name : String)
deriving DecidableEq, Repr

/-- The ParameterVariable arm of the scope walk in inline_into (core.py
lines 716-728): a literal argument requires a by-value parameter and binds
directly; a variable argument on a by-value parameter creates a fresh
copy variable in the target and queues a SetScore copy; a by-reference
parameter binds the caller variable directly.  The fresh copy variable is
the caller variable name with the _copy hint (core.py line 723). -/
def inlineParamSetup :
    List (VarType × PassType) → List ArgVal →
    Except Err (List Binding × List Insn)
  | [], [] => .ok ([], [])
  | p :: ps, a :: as =>
    match a with
    | .litInt _ | .litFloat _ =>
      if p.2 = .byval then do
        let (bs, insns) ← inlineParamSetup ps as
        .ok (.toLit a :: bs, insns)
      else .error .literalOnByref
    | .avar v _ =>
      match p.2 with
      | .byval => do
        let (bs, insns) ← inlineParamSetup ps as
        .ok (.toCopyVar (v ++ "_copy") :: bs,
             .setScore (v ++ "_copy") v :: insns)
      | .byref => do
        let (bs, insns) ← inlineParamSetup ps as
        .ok (.toCallerVar v :: bs, insns)
  | _, _ => .error .argCountMismatch

/-- The body of the callee entry block as copied by _inline_seq (core.py
lines 684-697): only inline-copyable instructions survive.  Operand
substitution through the scope mapping renames variables but neither adds
nor removes instructions and never produces a SetScore copy, so it is
left as the identity here. -/
def inlineCopyBody (body : List Insn) : List Insn :=
  body.filter Insn.inline_copyable

/-- inline_into restricted to what reaches the mapped entry block (core.py
lines 699-751): after validating the arguments, the queued per-parameter
copy instructions are added to the mapped entry block first (core.py lines
739-741), then the copied body of the source entry block follows. -/
def inline_entry_block (params : List (VarType × PassType))
    (args : List ArgVal) (entryBody : List Insn) :
    Except Err (List Insn) := do
  if argsValidate params args = false then
    Except.error .argTypeMismatch
  else do
    let (_, entryInsns) ← inlineParamSetup params args
    Except.ok (entryInsns ++ inlineCopyBody entryBody)

/-- The copy instructions that C3 predicts: one SetScore into a fresh copy
variable per variable-valued argument, nothing for a literal argument. -/
def predictedCopies (args : List ArgVal) : List Insn :=
  args.filterMap fun a =>
    match a with
    | .avar v _ => some (.setScore (v ++ "_copy") v)
    | _ => none

theorem inlineParamSetup_byval (params : List (VarType × PassType))
    (args : List ArgVal) (hby : ∀ p ∈ params, p.2 = .byval)
    (hlen : params.length = args.length) :
    ∃ bs, inlineParamSetup params args = .ok (bs, predictedCopies args) := by
  induction params generalizing args with
  | nil =>
    cases args with
    | nil => exact ⟨[], rfl⟩
    | cons a as => cases hlen
  | cons p ps ih =>
    cases args with
    | nil => cases hlen
    | cons a as =>
      have hp : p.2 = .byval := hby p (by simp)
      have hrest : ∀ q ∈ ps, q.2 = .byval := fun q hq => hby q (by simp [hq])
      obtain ⟨bs, hbs⟩ := ih as hrest (by simpa using hlen)
      cases a with
      | litInt n =>
        refine ⟨.toLit (.litInt n) :: bs, ?_⟩
        simp [inlineParamSetup, hp, hbs, predictedCopies, Bind.bind,
          Except.bind]
      | litFloat q =>
        refine ⟨.toLit (.litFloat q) :: bs, ?_⟩
        simp [inlineParamSetup, hp, hbs, predictedCopies, Bind.bind,
          Except.bind]
      | avar v t =>
        refine ⟨.toCopyVar (v ++ "_copy") :: bs, ?_⟩
        rw [inlineParamSetup, hp]
        simp [hbs, predictedCopies, Bind.bind, Except.bind]

theorem predictedCopies_length (args : List ArgVal) :
    (predictedCopies args).length =
      (args.filter fun a =>
        match a with
        | .avar _ _ => true
        | _ => false).length := by
  induction args with
  | nil => rfl
  | cons a as ih =>
    cases a
    · simpa [predictedCopies, List.filter_cons] using ih
    · simpa [predictedCopies, List.filter_cons] using ih
    · simpa [predictedCopies, List.filter_cons] using ih

/-- C3: inlining a function with only by-value parameters, on arguments
that validate against the signature, emits no copy instruction for a
literal argument and exactly one SetScore into a fresh copy variable for
each variable argument, and those copies sit at the top of the mapped
entry block, before the copied body. -/
theorem inline_entry_block_copies (params : List (VarType × PassType))
    (args : List ArgVal) (entryBody : List Insn)
    (hby : ∀ p ∈ params, p.2 = .byval)
    (hval : argsValidate params args = true) :
    inline_entry_block params args entryBody =
      .ok (predictedCopies args ++ inlineCopyBody entryBody) ∧
    (predictedCopies args).length =
      (args.filter fun a =>
        match a with
        | .avar _ _ => true
        | _ => false).length := by
  have hlen : params.length = args.length := by
    have h2 := (Bool.and_eq_true _ _).mp hval
    have h3 := h2.1
    rw [beq_iff_eq] at h3
    exact h3
  obtain ⟨bs, hbs⟩ := inlineParamSetup_byval params args hby hlen
  refine ⟨?_, predictedCopies_length args⟩
  simp [inline_entry_block, hval, hbs, Bind.bind, Except.bind]

/-- Witness for C3 at concrete inputs: a two-parameter by-value callee
called with one literal and one variable argument emits exactly the one
copy for the variable, at the top of the mapped entry block. -/
theorem inline_entry_block_copies_witness :
    inline_entry_block [(VarType.i32, .byval), (VarType.i32, .byval)]
      [.litInt 3, .avar "x" VarType.i32] [.other 1 false true] =
      .ok [.setScore ("x" ++ "_copy") "x", .other 1 false true] ∧
    (predictedCopies [.litInt 3, .avar "x" VarType.i32]).length = 1 := by
  have h := inline_entry_block_copies
    [(VarType.i32, .byval), (VarType.i32, .byval)]
    [.litInt 3, .avar "x" VarType.i32] [.other 1 false true]
    (by intro p hp; fin_cases hp <;> rfl) (by decide)
  exact ⟨h.1, h.2⟩

/-- A function signature: the ordered (type, pass-mode) parameter list and
the ordered return type list (core.py params and returns). -/
structure Sig where
  params : List (VarType × PassType)
  returns : List VarType
deriving DecidableEq, Repr

/-- A function-like reference held in an instruction argument slot, the
granularity at which apply_mapping over ExternFunction rewrites blocks
(core.py lines 123-128 and 403-406).  Python distinguishes extern stub
objects by identity; a numeric uid models that identity. -/
inductive FuncRef where
  | toExtern (uid : Nat)
  | toFunc (fname : String)
  | noRef
deriving DecidableEq, Repr

/-- The function-reference slots of one basic block. -/
abbrev BlockRefs := List FuncRef

/-- A top-level scope value: a genuine IRFunction (signature, finished
flag, user-block reference slots), an ExternFunction stub, or a
non-function entity (PosUtilEntity, GlobalEntity, globals). -/
inductive ScopeVal where
  | genuine (sig : Sig) (fin : Bool) (blocks : List BlockRefs)
  | externFn (uid : Nat) (sig : Sig)
  | nonfunc (id : Nat)
deriving DecidableEq, Repr

/-- A compilation unit: the root scope in insertion order plus the
finished flag (core.py TopLevel). -/
structure TopLevelU where
  scope : List (String × ScopeVal)
  finished : Bool
deriving DecidableEq, Repr

/-- VisibleFunction.finished as TopLevel.end consults it (core.py lines
324-329): a genuine function reports its own flag, an ExternFunction
reports True unconditionally (core.py lines 478-480), and non-function
entries are not checked at all. -/
def ScopeVal.visibleFinished : ScopeVal → Bool
  | .genuine _ fin _ => fin
  | .externFn _ _ => true
  | .nonfunc _ => true

/-- TopLevel.end (core.py lines 324-329). -/
def TopLevelU.endUnit (t : TopLevelU) : Except Err TopLevelU :=
  if t.finished then .error .alreadyFinished
  else if t.scope.all (fun e => e.2.visibleFinished) then
    .ok { t with finished := true }
  else .error .unfinishedFunction

def isExternEntry : (String × ScopeVal) → Bool
  | (_, .externFn _ _) => true
  | _ => false

/-- The same unit with every ExternFunction stub deleted from scope. -/
def TopLevelU.removeExterns (t : TopLevelU) : TopLevelU :=
  { t with scope := t.scope.filter (fun e => !isExternEntry e) }

theorem all_visibleFinished_filter (l : List (String × ScopeVal)) :
    (l.filter (fun e => !isExternEntry e)).all
        (fun e => e.2.visibleFinished) =
      l.all (fun e => e.2.visibleFinished) := by
  induction l with
  | nil => rfl
  | cons e rest ih =>
    by_cases he : isExternEntry e = true
    · have hfin : e.2.visibleFinished = true := by
        rcases e with ⟨n, v⟩
        cases v with
        | genuine sig fin blocks => simp [isExternEntry] at he
        | externFn uid sig => rfl
        | nonfunc id => simp [isExternEntry] at he
      simp [List.filter_cons, he, List.all_cons, hfin, ih]
    · simp [List.filter_cons, he, List.all_cons, ih]

/-- C10: ExternFunction.finished is True unconditionally, so TopLevel.end
never fails on account of an extern stub: its success is unchanged by
deleting every extern stub from scope. -/
theorem extern_finished_never_blocks_end (t : TopLevelU) :
    (∀ uid sig, ScopeVal.visibleFinished (.externFn uid sig) = true) ∧
    (t.endUnit).isOk = (t.removeExterns.endUnit).isOk := by
  refine ⟨fun _ _ => rfl, ?_⟩
  by_cases hf : t.finished
  · simp [TopLevelU.endUnit, TopLevelU.removeExterns, hf]
  · have h := all_visibleFinished_filter t.scope
    by_cases ha : t.scope.all (fun e => e.2.visibleFinished) = true
    · simp [TopLevelU.endUnit, TopLevelU.removeExterns, hf, ha, h,
            Except.isOk, Except.toBool]
    · have ha2 : t.scope.all (fun e => e.2.visibleFinished) = false :=
        Bool.eq_false_iff.mpr ha
      simp [TopLevelU.endUnit, TopLevelU.removeExterns, hf, ha2, h]

/-- ObjectFormat.VERSION (core.py line 927). -/
def FORMAT_VERSION : String := "1.0.0"

/-- The pickled object graph that save produces: the wrapped unit plus the
version stamp (core.py lines 929-931).  pickle.dumps/loads composed with
zlib compress/decompress is modelled as the identity on the graph. -/
structure ObjectFormatM where
  top : TopLevelU
  version : String
deriving DecidableEq, Repr

/-- ObjectFormat.save (core.py lines 941-946). -/
def objectFormatSave (top : TopLevelU) : ObjectFormatM :=
  ⟨top, FORMAT_VERSION⟩

/-- ObjectFormat.load (core.py lines 933-939): unpickle, assert the stamp
equals the running version, and return the wrapper holding the embedded
unit. -/
def objectFormatLoad (blob : ObjectFormatM) : Except Err ObjectFormatM :=
  if blob.version = FORMAT_VERSION then .ok blob
  else .error .versionMismatch

/-- The structural summary the round-trip claim compares: visible function
names in order with their signatures and block counts. -/
def visibleSummary (t : TopLevelU) : List (String × Sig × Nat) :=
  t.scope.filterMap fun e =>
    match e.2 with
    | .genuine sig _ blocks => some (e.1, sig, blocks.length)
    | .externFn _ sig => some (e.1, sig, 0)
    | .nonfunc _ => none

/-- Structural equivalence: same visible function names, signatures and
block counts. -/
def structEquiv (a b : TopLevelU) : Prop :=
  visibleSummary a = visibleSummary b

/-- C5: save followed by load succeeds and yields the embedded unit,
structurally equivalent to (indeed equal to) the saved one; and load of
any blob stamped with a different version fails before yielding a unit. -/
theorem objectFormat_roundtrip (u : TopLevelU) (_hfin : u.finished = true)
    (blob : ObjectFormatM) (hv : blob.version ≠ FORMAT_VERSION) :
    (objectFormatLoad (objectFormatSave u)).map ObjectFormatM.top =
        .ok u ∧
    structEquiv u u ∧
    objectFormatLoad blob = .error .versionMismatch := by
  refine ⟨?_, rfl, ?_⟩
  · simp [objectFormatLoad, objectFormatSave, Except.map]
  · simp [objectFormatLoad, hv]

/-- Witness for C5 at concrete inputs: a finished unit with one function
round-trips, and a blob stamped 0.9.9 is rejected. -/
theorem objectFormat_roundtrip_witness :
    (objectFormatLoad (objectFormatSave
        ⟨[("f", .genuine ⟨[], []⟩ true [[]])], true⟩)).map
      ObjectFormatM.top =
      .ok ⟨[("f", .genuine ⟨[], []⟩ true [[]])], true⟩ ∧
    objectFormatLoad ⟨⟨[], false⟩, "0.9.9"⟩ =
      .error .versionMismatch := by
  have h := objectFormat_roundtrip
    ⟨[("f", .genuine ⟨[], []⟩ true [[]])], true⟩ rfl
    ⟨⟨[], false⟩, "0.9.9"⟩ (by decide)
  exact ⟨h.1, h.2.2⟩

/-- The value include_from passes as the params argument of
ExternFunction.__init__ (core.py line 322 passes the importing TopLevel
itself in that position). -/
inductive ParamsArg where
  | noneVal
  | listVal (ps : List (VarType × PassType))
  | topVal (t : TopLevelU)
deriving Repr

/-- Python truthiness of the params argument: None and the empty list are
falsy, a non-empty list and any TopLevel object are truthy. -/
def ParamsArg.truthy : ParamsArg → Bool
  | .noneVal => false
  | .listVal ps => !ps.isEmpty
  | .topVal _ => true

/-- Python list(params or []) as evaluated by ExternFunction.__init__
(core.py line 473): a falsy argument is replaced by the empty list; then
list() copies an iterable and raises TypeError on a TopLevel, which is not
iterable. -/
def pyListParams (a : ParamsArg) : Except Err (List (VarType × PassType)) :=
  match (if a.truthy then a else .listVal []) with
  | .listVal ps => .ok ps
  | .noneVal => .ok []
  | .topVal _ => .error .typeErrorNotIterable

/-- The ExternFunction state __init__ builds (core.py lines 471-476). -/
structure ExternModel where
  gname : String
  params : List (VarType × PassType)
  returns : List VarType
deriving Repr

/-- ExternFunction.__init__ (core.py lines 471-476): materialise the
params and returns lists from the given arguments; the per-parameter
pass-mode assertion holds by typing here. -/
def externFunctionInit (global_name : String) (params : ParamsArg)
    (returns : Option (List VarType)) : Except Err ExternModel := do
  let ps ← pyListParams params
  .ok ⟨global_name, ps, returns.getD []⟩

/-- VisibleFunction.global_name as include_from reads it (core.py line
322): a genuine defined function answers its stored name (core.py lines
617-620); an ExternFunction raises (core.py lines 485-488). -/
def globalNameOf (name : String) : ScopeVal → Except Err String
  | .genuine _ _ _ => .ok name
  | .externFn _ _ => .error .externNotReferencable
  | .nonfunc _ => .error .notAFunction

/-- TopLevel.include_from (core.py lines 319-322): for every visible
(function-like) symbol of the other unit whose name does not start with a
double underscore, construct an ExternFunction from its global name,
passing the importing TopLevel itself in the params position, and write
the stub into this scope. -/
def TopLevelU.include_from (self other : TopLevelU) :
    Except Err TopLevelU := do
  let newScope ← other.scope.foldlM
    (fun (acc : List (String × ScopeVal)) e =>
      match e.2 with
      | .nonfunc _ => .ok acc
      | v =>
        if e.1.startsWith "__" then .ok acc
        else do
          let g ← globalNameOf e.1 v
          let ext ← externFunctionInit g (.topVal self) none
          .ok (frameSet acc e.1 (.externFn 0 ⟨ext.params, ext.returns⟩)))
    self.scope
  .ok { self with scope := newScope }

/-- A unit exporting one genuine defined visible function f. -/
def exExportUnit : TopLevelU :=
  ⟨[("f", .genuine ⟨[(VarType.i32, .byval)], []⟩ true [[]])], true⟩

/-- An importing unit with an empty scope. -/
def exImportUnit : TopLevelU := ⟨[], false⟩

/-- C6: evaluating include_from at the failing input: importing a unit
that exports one genuine visible function raises TypeError, because
ExternFunction.__init__ receives the importing TopLevel as its params
argument and list() cannot iterate it; no stub carrying the exported
signature is ever stored. -/
theorem include_from_type_error :
    TopLevelU.include_from exImportUnit exExportUnit =
      .error .typeErrorNotIterable ∧
    ParamsArg.truthy (.topVal exImportUnit) = true ∧
    pyListParams (.topVal exImportUnit) = .error .typeErrorNotIterable := by
  exact ⟨rfl, rfl, rfl⟩

/-- Dictionary lookup in a scope frame (first binding wins; names are kept
unique by the store discipline below). -/
def lookupScope (s : List (String × ScopeVal)) (n : String) :
    Option ScopeVal :=
  (s.find? (fun e => e.1 == n)).map (·.2)

/-- VariableHolder.store (core.py lines 231-234): assert the name is not
already bound, then bind it. -/
def storeScope (s : List (String × ScopeVal)) (n : String) (v : ScopeVal) :
    Except Err (List (String × ScopeVal)) :=
  if (lookupScope s n).isSome then .error .duplicateDefinition
  else .ok (s ++ [(n, v)])

/-- VariableHolder.uniq_name (core.py lines 215-221): the hint itself if
free, else the first hint+i that is free.  The search range always
contains a free name by pigeonhole; the fallback arm is unreachable. -/
def uniqName (s : List (String × ScopeVal)) (hint : String) : String :=
  if (lookupScope s hint).isNone then hint
  else
    match (List.range (s.length + 1)).find?
        (fun i => (lookupScope s (hint ++ toString i)).isNone) with
    | some i => hint ++ toString i
    | none => hint ++ "_unreachable"

/-- The state the linker accumulates while scanning units (core.py lines
371-389): the merged scope built so far and the deferred extern stubs in
encounter order (the flattened defaultdict contents, tagged by name). -/
structure LinkState where
  outScope : List (String × ScopeVal)
  externs : List (String × Nat × Sig)
deriving Repr

/-- The scan of one unit scope (core.py lines 378-389): genuine functions
are stored under their own name (duplicate definitions fail), extern stubs
are deferred into the per-name buckets, and non-function values are stored
under a uniquified name. -/
def collectScope :
    List (String × ScopeVal) → LinkState → Except Err LinkState
  | [], st => .ok st
  | (n, .genuine sig fin blocks) :: rest, st => do
    let s2 ← storeScope st.outScope n (.genuine sig fin blocks)
    collectScope rest { st with outScope := s2 }
  | (n, .externFn uid sig) :: rest, st =>
    collectScope rest
      { st with externs := st.externs ++ [(n, uid, sig)] }
  | (n, .nonfunc id) :: rest, st =>
    collectScope rest
      { st with outScope :=
          st.outScope ++ [(uniqName st.outScope n, .nonfunc id)] }

/-- The outer unit loop of the linker (core.py lines 374-389): each unit
must be finished, then its scope is scanned. -/
def collectUnits : List TopLevelU → LinkState → Except Err LinkState
  | [], st => .ok st
  | u :: us, st =>
    if u.finished = false then .error .unfinishedUnit
    else do
      let st2 ← collectScope u.scope st
      collectUnits us st2

/-- The bucket of deferred extern stubs recorded under one name. -/
def stubsFor (externs : List (String × Nat × Sig)) (n : String) :
    List (Nat × Sig) :=
  (externs.filter (fun e => e.1 == n)).map (·.2)

/-- Bucket names in first-encounter order (defaultdict insertion order),
tracking the names already emitted. -/
def firstSeenAux (seen : List String) : List String → List String
  | [] => []
  | n :: rest =>
    if n ∈ seen then firstSeenAux seen rest
    else n :: firstSeenAux (n :: seen) rest

/-- Bucket names in first-encounter order (defaultdict insertion order). -/
def firstSeen (l : List String) : List String :=
  firstSeenAux [] l

/-- Resolution of one extern bucket (core.py lines 390-402): the
replacement is the genuine definition found in the merged scope, or else
the first stub; every stub must match the replacement signature
(expect_signature, core.py lines 490-496); stubs other than the
replacement are scheduled for rewriting; without a genuine definition the
representative stub is stored back into the merged scope. -/
def resolveName (out : List (String × ScopeVal))
    (mapping : List (Nat × FuncRef)) (n : String)
    (stubs : List (Nat × Sig)) :
    Except Err (List (String × ScopeVal) × List (Nat × FuncRef)) :=
  match stubs with
  | [] => .ok (out, mapping)
  | (uid0, sig0) :: _ =>
    match lookupScope out n with
    | some (.genuine gsig _ _) =>
      if stubs.all (fun s => s.2 == gsig) then
        .ok (out, mapping ++ stubs.map (fun s => (s.1, FuncRef.toFunc n)))
      else .error .signatureMismatch
    | some (.externFn euid esig) =>
      if stubs.all (fun s => s.2 == esig) then
        .ok (out, mapping ++
          ((stubs.filter (fun s => !(s.1 == euid))).map
            (fun s => (s.1, FuncRef.toExtern euid))))
      else .error .signatureMismatch
    | some (.nonfunc _) => .error .notAFunction
    | none =>
      if stubs.all (fun s => s.2 == sig0) then do
        let out2 ← storeScope out n (.externFn uid0 sig0)
        .ok (out2, mapping ++
          ((stubs.filter (fun s => !(s.1 == uid0))).map
            (fun s => (s.1, FuncRef.toExtern uid0))))
      else .error .signatureMismatch

/-- The bucket loop (core.py lines 390-402). -/
def resolveAll (externs : List (String × Nat × Sig)) :
    List String →
    (List (String × ScopeVal) × List (Nat × FuncRef)) →
    Except Err (List (String × ScopeVal) × List (Nat × FuncRef))
  | [], acc => .ok acc
  | n :: ns, acc => do
    let acc2 ← resolveName acc.1 acc.2 n (stubsFor externs n)
    resolveAll externs ns acc2

/-- apply_mapping on one reference slot (core.py lines 123-128): replace
an ExternFunction reference if the mapping binds it. -/
def rewriteRef (mapping : List (Nat × FuncRef)) : FuncRef → FuncRef
  | .toExtern u =>
    match mapping.find? (fun e => e.1 == u) with
    | some e => e.2
    | none => .toExtern u
  | r => r

/-- The post-resolution sweep over every collected block (core.py lines
403-406): all collected blocks are exactly the user blocks of the genuine
functions stored in the merged scope. -/
def rewriteScope (mapping : List (Nat × FuncRef))
    (s : List (String × ScopeVal)) : List (String × ScopeVal) :=
  s.map fun e =>
    match e.2 with
    | .genuine sig fin blocks =>
      (e.1, .genuine sig fin (blocks.map (fun b => b.map (rewriteRef mapping))))
    | v => (e.1, v)

/-- The scope of a fresh TopLevel (core.py lines 278-283): the two
non-function utility entities. -/
def initTopScope : List (String × ScopeVal) :=
  [("pos_util", .nonfunc 0), ("_global_entity", .nonfunc 1)]

/-- TopLevel.linker (core.py lines 364-408): a single unit is returned
unchanged; otherwise scan all units, resolve the extern buckets, rewrite
every collected block through the resolution mapping, and close the merged
unit. -/
def linker (tops : List TopLevelU) : Except Err TopLevelU :=
  match tops with
  | [] => .error .emptyLink
  | [t] => .ok t
  | _ => do
    let st ← collectUnits tops ⟨initTopScope, []⟩
    let acc ← resolveAll st.externs
      (firstSeen (st.externs.map (·.1))) (st.outScope, [])
    TopLevelU.endUnit ⟨rewriteScope acc.2 acc.1, false⟩

/-- The deferred-extern triple an extern scope entry contributes. -/
def externTriple (e : String × ScopeVal) : Option (String × Nat × Sig) :=
  match e.2 with
  | .externFn uid sig => some (e.1, uid, sig)
  | _ => none

/-- All extern stubs declared across a list of units, in scan order. -/
def externsOfUnits : List TopLevelU → List (String × Nat × Sig)
  | [] => []
  | u :: us => u.scope.filterMap externTriple ++ externsOfUnits us

theorem lookupScope_append (s t : List (String × ScopeVal)) (n : String) :
    lookupScope (s ++ t) n = (lookupScope s n).or (lookupScope t n) := by
  simp [lookupScope, List.find?_append]
  cases List.find? (fun e => e.1 == n) s <;> rfl

theorem lookupScope_append_some (s t : List (String × ScopeVal))
    (n : String) (v : ScopeVal) (h : lookupScope s n = some v) :
    lookupScope (s ++ t) n = some v := by
  rw [lookupScope_append, h]
  rfl

theorem lookupScope_append_none (s t : List (String × ScopeVal))
    (n : String) (h : lookupScope s n = none) :
    lookupScope (s ++ t) n = lookupScope t n := by
  rw [lookupScope_append, h]
  rfl

theorem lookupScope_single (m n : String) (v : ScopeVal) :
    lookupScope [(m, v)] n = if m == n then some v else none := by
  by_cases h : m == n <;> simp [lookupScope, List.find?, h]

theorem lookupScope_none_iff (s : List (String × ScopeVal)) (n : String) :
    lookupScope s n = none ↔ ∀ e ∈ s, e.1 ≠ n := by
  simp [lookupScope, List.find?_eq_none]

theorem lookupScope_some_mem (s : List (String × ScopeVal)) (n : String)
    (v : ScopeVal) (h : lookupScope s n = some v) : (n, v) ∈ s := by
  simp only [lookupScope, Option.map_eq_some'] at h
  obtain ⟨e, he, hev⟩ := h
  have hmem := List.mem_of_find?_eq_some he
  have hpred := List.find?_some he
  have h1 : e.1 = n := by simpa using hpred
  have : e = (n, v) := by
    cases e
    simp at h1 hev
    simp [h1, hev]
  rw [← this]
  exact hmem

theorem storeScope_ok (s s2 : List (String × ScopeVal)) (n : String)
    (v : ScopeVal) (h : storeScope s n v = .ok s2) :
    lookupScope s n = none ∧ s2 = s ++ [(n, v)] := by
  by_cases hl : (lookupScope s n).isSome
  · simp [storeScope, hl] at h
  · have : lookupScope s n = none := by
      cases hlk : lookupScope s n
      · rfl
      · rw [hlk] at hl
        simp at hl
    refine ⟨this, ?_⟩
    simp [storeScope, hl] at h
    exact h.symm

theorem firstSeenAux_mem (l : List String) :
    ∀ (seen : List String) (n : String),
    n ∈ firstSeenAux seen l ↔ n ∈ l ∧ n ∉ seen := by
  induction l with
  | nil =>
    intro seen n
    simp [firstSeenAux]
  | cons m rest ih =>
    intro seen n
    rw [firstSeenAux]
    by_cases hm : m ∈ seen
    · rw [if_pos hm, ih]
      constructor
      · rintro ⟨h1, h2⟩
        exact ⟨by simp [h1], h2⟩
      · rintro ⟨h1, h2⟩
        rcases List.mem_cons.mp h1 with h3 | h3
        · subst h3
          exact absurd hm h2
        · exact ⟨h3, h2⟩
    · rw [if_neg hm]
      by_cases hn : n = m
      · subst hn
        simp [hm]
      · simp only [List.mem_cons, hn, false_or]
        rw [ih]
        constructor
        · rintro ⟨h1, h2⟩
          exact ⟨h1, fun h3 => h2 (by simp [h3])⟩
        · rintro ⟨h1, h2⟩
          refine ⟨h1, ?_⟩
          intro h3
          rcases List.mem_cons.mp h3 with h4 | h4
          · exact hn h4
          · exact h2 h4

theorem firstSeen_mem (l : List String) (n : String) :
    n ∈ firstSeen l ↔ n ∈ l := by
  rw [firstSeen, firstSeenAux_mem]
  simp

theorem firstSeenAux_nodup (l : List String) :
    ∀ seen : List String, (firstSeenAux seen l).Nodup := by
  induction l with
  | nil =>
    intro seen
    simp [firstSeenAux]
  | cons m rest ih =>
    intro seen
    rw [firstSeenAux]
    by_cases hm : m ∈ seen
    · rw [if_pos hm]
      exact ih seen
    · rw [if_neg hm]
      refine List.Nodup.cons ?_ (ih (m :: seen))
      intro hmem
      rw [firstSeenAux_mem] at hmem
      exact hmem.2 (by simp)

theorem firstSeen_nodup (l : List String) : (firstSeen l).Nodup :=
  firstSeenAux_nodup l []

theorem stubsFor_mem (externs : List (String × Nat × Sig)) (n : String)
    (u : Nat) (sg : Sig) :
    (u, sg) ∈ stubsFor externs n ↔ (n, u, sg) ∈ externs := by
  simp only [stubsFor, List.mem_map, List.mem_filter]
  constructor
  · rintro ⟨e, ⟨he, hn⟩, hv⟩
    have h1 : e.1 = n := by simpa using hn
    have : e = (n, u, sg) := by
      cases e
      simp at h1 hv ⊢
      exact ⟨h1, hv⟩
    rw [← this]
    exact he
  · intro h
    exact ⟨(n, u, sg), ⟨h, by simp⟩, rfl⟩

theorem stubsFor_ne_nil_iff (externs : List (String × Nat × Sig))
    (n : String) :
    stubsFor externs n ≠ [] ↔ n ∈ externs.map (·.1) := by
  constructor
  · intro h
    cases hs : stubsFor externs n with
    | nil => exact absurd hs h
    | cons p tl =>
      have : (p.1, p.2) ∈ stubsFor externs n := by
        rw [hs]
        simp
      rw [stubsFor_mem] at this
      exact List.mem_map.mpr ⟨(n, p.1, p.2), this, rfl⟩
  · intro h hnil
    obtain ⟨e, he, hn⟩ := List.mem_map.mp h
    have : (e.2.1, e.2.2) ∈ stubsFor externs n := by
      rw [stubsFor_mem, ← hn]
      exact he
    rw [hnil] at this
    cases this

theorem bindE_ok {α β : Type} {x : Except Err α} {f : α → Except Err β}
    {b : β} (h : (x >>= f) = .ok b) : ∃ a, x = .ok a ∧ f a = .ok b := by
  cases x with
  | error e => simp [Bind.bind, Except.bind] at h
  | ok a => exact ⟨a, rfl, by simpa [Bind.bind, Except.bind] using h⟩

theorem collectScope_extends :
    ∀ (entries : List (String × ScopeVal)) (st st2 : LinkState),
    collectScope entries st = .ok st2 →
    ∃ extra, st2.outScope = st.outScope ++ extra ∧
      ∀ e ∈ extra,
        (∃ sig fin blocks, e.2 = ScopeVal.genuine sig fin blocks) ∨
        (∃ id, e.2 = ScopeVal.nonfunc id) := by
  intro entries
  induction entries with
  | nil =>
    intro st st2 h
    have h2 : st = st2 := by simpa [collectScope] using h
    exact ⟨[], by simp [h2], by intro e he; cases he⟩
  | cons e rest ih =>
    rcases e with ⟨n, v⟩
    intro st st2 h
    cases v with
    | genuine sig fin blocks =>
      rw [collectScope] at h
      obtain ⟨s2, hs, hrest⟩ := bindE_ok h
      obtain ⟨hnone, hs2⟩ := storeScope_ok _ _ _ _ hs
      obtain ⟨extra2, hex, hprop⟩ := ih _ _ hrest
      refine ⟨(n, .genuine sig fin blocks) :: extra2, ?_, ?_⟩
      · rw [hex]
        simp [hs2]
      · intro e2 he2
        rcases List.mem_cons.mp he2 with h3 | h3
        · left
          rw [h3]
          exact ⟨sig, fin, blocks, rfl⟩
        · exact hprop e2 h3
    | externFn uid sig =>
      rw [collectScope] at h
      exact ih { st with externs := st.externs ++ [(n, uid, sig)] } st2 h
    | nonfunc id =>
      rw [collectScope] at h
      obtain ⟨extra2, hex, hprop⟩ := ih _ _ h
      refine ⟨(uniqName st.outScope n, .nonfunc id) :: extra2, ?_, ?_⟩
      · rw [hex]
        simp
      · intro e2 he2
        rcases List.mem_cons.mp he2 with h3 | h3
        · right
          rw [h3]
          exact ⟨id, rfl⟩
        · exact hprop e2 h3

theorem collectUnits_extends :
    ∀ (us : List TopLevelU) (st st2 : LinkState),
    collectUnits us st = .ok st2 →
    ∃ extra, st2.outScope = st.outScope ++ extra ∧
      ∀ e ∈ extra,
        (∃ sig fin blocks, e.2 = ScopeVal.genuine sig fin blocks) ∨
        (∃ id, e.2 = ScopeVal.nonfunc id) := by
  intro us
  induction us with
  | nil =>
    intro st st2 h
    have h2 : st = st2 := by simpa [collectUnits] using h
    exact ⟨[], by simp [h2], by intro e he; cases he⟩
  | cons u rest ih =>
    intro st st2 h
    rw [collectUnits] at h
    by_cases hf : u.finished = false
    · simp [hf] at h
    · simp only [hf, if_false] at h
      obtain ⟨mid, hm, hrest⟩ := bindE_ok h
      obtain ⟨e1, hx1, hp1⟩ := collectScope_extends _ _ _ hm
      obtain ⟨e2, hx2, hp2⟩ := ih _ _ hrest
      refine ⟨e1 ++ e2, ?_, ?_⟩
      · rw [hx2, hx1, List.append_assoc]
      · intro e2m he2
        rcases List.mem_append.mp he2 with h3 | h3
        · exact hp1 _ h3
        · exact hp2 _ h3

theorem collectScope_externs :
    ∀ (entries : List (String × ScopeVal)) (st st2 : LinkState),
    collectScope entries st = .ok st2 →
    st2.externs = st.externs ++ entries.filterMap externTriple := by
  intro entries
  induction entries with
  | nil =>
    intro st st2 h
    have h2 : st = st2 := by simpa [collectScope] using h
    simp [← h2]
  | cons e rest ih =>
    rcases e with ⟨n, v⟩
    intro st st2 h
    cases v with
    | genuine sig fin blocks =>
      rw [collectScope] at h
      obtain ⟨s2, _, hrest⟩ := bindE_ok h
      have := ih _ _ hrest
      simpa [externTriple, List.filterMap_cons] using this
    | externFn uid sig =>
      rw [collectScope] at h
      have := ih _ _ h
      simp only [externTriple, List.filterMap_cons] at *
      rw [this]
      simp
    | nonfunc id =>
      rw [collectScope] at h
      have := ih _ _ h
      simpa [externTriple, List.filterMap_cons] using this

theorem collectUnits_externs :
    ∀ (us : List TopLevelU) (st st2 : LinkState),
    collectUnits us st = .ok st2 →
    st2.externs = st.externs ++ externsOfUnits us := by
  intro us
  induction us with
  | nil =>
    intro st st2 h
    have h2 : st = st2 := by simpa [collectUnits] using h
    simp [← h2, externsOfUnits]
  | cons u rest ih =>
    intro st st2 h
    rw [collectUnits] at h
    by_cases hf : u.finished = false
    · simp [hf] at h
    · simp only [hf, if_false] at h
      obtain ⟨mid, hm, hrest⟩ := bindE_ok h
      have h1 := collectScope_externs _ _ _ hm
      have h2 := ih _ _ hrest
      rw [h2, h1, externsOfUnits, List.append_assoc]

theorem collectScope_genuine :
    ∀ (entries : List (String × ScopeVal)) (st st2 : LinkState),
    collectScope entries st = .ok st2 →
    ∀ nm sig fin blocks,
    (nm, ScopeVal.genuine sig fin blocks) ∈ entries →
    lookupScope st2.outScope nm = some (.genuine sig fin blocks) := by
  intro entries
  induction entries with
  | nil =>
    intro st st2 _ nm sig fin blocks hmem
    cases hmem
  | cons e rest ih =>
    rcases e with ⟨n, v⟩
    intro st st2 h nm sig fin blocks hmem
    rcases List.mem_cons.mp hmem with h3 | h3
    · have hn : n = nm := (Prod.mk.injEq _ _ _ _).mp h3.symm |>.1
      have hv : v = .genuine sig fin blocks :=
        (Prod.mk.injEq _ _ _ _).mp h3.symm |>.2
      subst hn hv
      obtain ⟨s2, hs, hrest⟩ := bindE_ok h
      obtain ⟨hnone, hs2⟩ := storeScope_ok _ _ _ _ hs
      obtain ⟨extra2, hex, _⟩ := collectScope_extends _ _ _ hrest
      rw [hex, hs2, List.append_assoc]
      rw [lookupScope_append_none _ _ _ hnone]
      rw [lookupScope_append, lookupScope_single]
      simp
    · cases v with
      | genuine sig2 fin2 blocks2 =>
        rw [collectScope] at h
        obtain ⟨s2, _, hrest⟩ := bindE_ok h
        exact ih _ _ hrest nm sig fin blocks h3
      | externFn uid sig2 =>
        rw [collectScope] at h
        exact ih _ _ h nm sig fin blocks h3
      | nonfunc id =>
        rw [collectScope] at h
        exact ih _ _ h nm sig fin blocks h3

theorem collectUnits_genuine :
    ∀ (us : List TopLevelU) (st st2 : LinkState),
    collectUnits us st = .ok st2 →
    ∀ u ∈ us, ∀ nm sig fin blocks,
    (nm, ScopeVal.genuine sig fin blocks) ∈ u.scope →
    lookupScope st2.outScope nm = some (.genuine sig fin blocks) := by
  intro us
  induction us with
  | nil =>
    intro st st2 _ u hu
    cases hu
  | cons u0 rest ih =>
    intro st st2 h u hu nm sig fin blocks hmem
    rw [collectUnits] at h
    by_cases hf : u0.finished = false
    · simp [hf] at h
    · simp only [hf, if_false] at h
      obtain ⟨mid, hm, hrest⟩ := bindE_ok h
      rcases List.mem_cons.mp hu with h3 | h3
      · subst h3
        have h4 := collectScope_genuine _ _ _ hm nm sig fin blocks hmem
        obtain ⟨extra, hex, _⟩ := collectUnits_extends _ _ _ hrest
        rw [hex]
        exact lookupScope_append_some _ _ _ _ h4
      · exact ih _ _ hrest u h3 nm sig fin blocks hmem

theorem collectScope_genuine_source :
    ∀ (entries : List (String × ScopeVal)) (st st2 : LinkState),
    collectScope entries st = .ok st2 →
    ∀ nm sig fin blocks,
    lookupScope st2.outScope nm = some (.genuine sig fin blocks) →
    lookupScope st.outScope nm = some (.genuine sig fin blocks) ∨
      (nm, ScopeVal.genuine sig fin blocks) ∈ entries := by
  intro entries
  induction entries with
  | nil =>
    intro st st2 h nm sig fin blocks hlk
    have h2 : st = st2 := by simpa [collectScope] using h
    left
    rw [h2]
    exact hlk
  | cons e rest ih =>
    rcases e with ⟨n, v⟩
    intro st st2 h nm sig fin blocks hlk
    cases v with
    | genuine sig2 fin2 blocks2 =>
      rw [collectScope] at h
      obtain ⟨s2, hs, hrest⟩ := bindE_ok h
      obtain ⟨hnone, hs2⟩ := storeScope_ok _ _ _ _ hs
      rcases ih _ _ hrest nm sig fin blocks hlk with h3 | h3
      · rw [hs2, lookupScope_append, lookupScope_single] at h3
        cases hcase : lookupScope st.outScope nm with
        | some w =>
          rw [hcase] at h3
          simp only [Option.or_some] at h3
          left
          exact h3
        | none =>
          rw [hcase] at h3
          simp only [Option.none_or] at h3
          by_cases hn : (n == nm) = true
          · rw [if_pos hn] at h3
            have hnm : n = nm := by simpa using hn
            have hv : ScopeVal.genuine sig2 fin2 blocks2 =
                ScopeVal.genuine sig fin blocks := by
              exact Option.some.inj h3
            right
            rw [← hnm, ← hv]
            exact List.mem_cons_self _ _
          · rw [if_neg hn] at h3
            simp at h3
      · right
        right
        exact h3
    | externFn uid sig2 =>
      rw [collectScope] at h
      rcases ih _ _ h nm sig fin blocks hlk with h3 | h3
      · left
        exact h3
      · right
        right
        exact h3
    | nonfunc id =>
      rw [collectScope] at h
      rcases ih _ _ h nm sig fin blocks hlk with h3 | h3
      · rw [lookupScope_append, lookupScope_single] at h3
        cases hcase : lookupScope st.outScope nm with
        | some w =>
          rw [hcase] at h3
          simp only [Option.or_some] at h3
          left
          exact h3
        | none =>
          rw [hcase] at h3
          simp only [Option.none_or] at h3
          by_cases hn : (uniqName st.outScope n == nm) = true
          · rw [if_pos hn] at h3
            simp at h3
          · rw [if_neg hn] at h3
            simp at h3
      · right
        right
        exact h3

theorem collectUnits_genuine_source :
    ∀ (us : List TopLevelU) (st st2 : LinkState),
    collectUnits us st = .ok st2 →
    ∀ nm sig fin blocks,
    lookupScope st2.outScope nm = some (.genuine sig fin blocks) →
    lookupScope st.outScope nm = some (.genuine sig fin blocks) ∨
      ∃ u ∈ us, (nm, ScopeVal.genuine sig fin blocks) ∈ u.scope := by
  intro us
  induction us with
  | nil =>
    intro st st2 h nm sig fin blocks hlk
    have h2 : st = st2 := by simpa [collectUnits] using h
    left
    rw [h2]
    exact hlk
  | cons u0 rest ih =>
    intro st st2 h nm sig fin blocks hlk
    rw [collectUnits] at h
    by_cases hf : u0.finished = false
    · simp [hf] at h
    · simp only [hf, if_false] at h
      obtain ⟨mid, hm, hrest⟩ := bindE_ok h
      rcases ih _ _ hrest nm sig fin blocks hlk with h3 | h3
      · rcases collectScope_genuine_source _ _ _ hm nm sig fin blocks h3
          with h4 | h4
        · left
          exact h4
        · right
          exact ⟨u0, by simp, h4⟩
      · right
        obtain ⟨u, hu, hmem⟩ := h3
        exact ⟨u, by simp [hu], hmem⟩

theorem resolveName_ok_cases (out : List (String × ScopeVal))
    (mp : List (Nat × FuncRef)) (n : String) (stubs : List (Nat × Sig))
    (out2 : List (String × ScopeVal)) (mp2 : List (Nat × FuncRef))
    (h : resolveName out mp n stubs = .ok (out2, mp2)) :
    (stubs = [] ∧ out2 = out ∧ mp2 = mp) ∨
    (∃ u0 s0 tl, stubs = (u0, s0) :: tl ∧
      ((∃ gsig gf gb,
          lookupScope out n = some (.genuine gsig gf gb) ∧
          (∀ s ∈ stubs, s.2 = gsig) ∧ out2 = out ∧
          mp2 = mp ++ stubs.map (fun s => (s.1, FuncRef.toFunc n))) ∨
       (∃ euid esig,
          lookupScope out n = some (.externFn euid esig) ∧
          (∀ s ∈ stubs, s.2 = esig) ∧ out2 = out ∧
          mp2 = mp ++ (stubs.filter (fun s => !(s.1 == euid))).map
            (fun s => (s.1, FuncRef.toExtern euid))) ∨
       (lookupScope out n = none ∧ (∀ s ∈ stubs, s.2 = s0) ∧
          out2 = out ++ [(n, ScopeVal.externFn u0 s0)] ∧
          mp2 = mp ++ (stubs.filter (fun s => !(s.1 == u0))).map
            (fun s => (s.1, FuncRef.toExtern u0))))) := by
  cases stubs with
  | nil =>
    left
    simp only [resolveName] at h
    have h2 := Except.ok.inj h
    exact ⟨rfl, congrArg Prod.fst h2.symm, congrArg Prod.snd h2.symm⟩
  | cons p tl =>
    rcases p with ⟨u0, s0⟩
    right
    refine ⟨u0, s0, tl, rfl, ?_⟩
    simp only [resolveName] at h
    cases hlk : lookupScope out n with
    | some v =>
      rw [hlk] at h
      cases v with
      | genuine gsig gf gb =>
        dsimp only at h
        by_cases hall : (((u0, s0) :: tl).all (fun s => s.2 == gsig)) = true
        · rw [if_pos hall] at h
          have h2 := Except.ok.inj h
          left
          refine ⟨gsig, gf, gb, rfl, ?_, congrArg Prod.fst h2.symm,
            congrArg Prod.snd h2.symm⟩
          intro s hs
          have := List.all_eq_true.mp hall s hs
          simpa using this
        · rw [if_neg hall] at h
          simp at h
      | externFn euid esig =>
        dsimp only at h
        by_cases hall : (((u0, s0) :: tl).all (fun s => s.2 == esig)) = true
        · rw [if_pos hall] at h
          have h2 := Except.ok.inj h
          right
          left
          refine ⟨euid, esig, rfl, ?_, congrArg Prod.fst h2.symm,
            congrArg Prod.snd h2.symm⟩
          intro s hs
          have := List.all_eq_true.mp hall s hs
          simpa using this
        · rw [if_neg hall] at h
          simp at h
      | nonfunc id =>
        simp at h
    | none =>
      rw [hlk] at h
      dsimp only at h
      by_cases hall : (((u0, s0) :: tl).all (fun s => s.2 == s0)) = true
      · rw [if_pos hall] at h
        obtain ⟨o2, hst, hret⟩ := bindE_ok h
        obtain ⟨_, ho2⟩ := storeScope_ok _ _ _ _ hst
        have h2 := Except.ok.inj hret
        right
        right
        refine ⟨rfl, ?_, ?_, congrArg Prod.snd h2.symm⟩
        · intro s hs
          have := List.all_eq_true.mp hall s hs
          simpa using this
        · have h3 : o2 = out2 := congrArg Prod.fst h2
          rw [← h3]
          exact ho2
      · rw [if_neg hall] at h
        simp at h

theorem lookupScope_append_single_ne (s : List (String × ScopeVal))
    (m n : String) (v : ScopeVal) (hne : (m == n) = false) :
    lookupScope (s ++ [(m, v)]) n = lookupScope s n := by
  rw [lookupScope_append, lookupScope_single, if_neg (by simp [hne] : ¬ (m == n) = true)]
  cases lookupScope s n <;> rfl

theorem resolveAll_extends (externs : List (String × Nat × Sig)) :
    ∀ (ns : List String)
    (acc res : List (String × ScopeVal) × List (Nat × FuncRef)),
    resolveAll externs ns acc = .ok res →
    (∀ n v, lookupScope acc.1 n = some v → lookupScope res.1 n = some v) ∧
    (∀ p ∈ acc.2, p ∈ res.2) ∧
    (∀ e ∈ res.1, e ∈ acc.1 ∨
      ((∃ u s0, e.2 = ScopeVal.externFn u s0) ∧
        lookupScope acc.1 e.1 = none)) ∧
    (∀ p ∈ res.2, p ∈ acc.2 ∨
      ∃ n2 ∈ ns, ∃ s2, (p.1, s2) ∈ stubsFor externs n2 ∧
        (p.2 = FuncRef.toFunc n2 ∨
         (∃ u0 s0 tl2, stubsFor externs n2 = (u0, s0) :: tl2 ∧
            p.2 = FuncRef.toExtern u0 ∧ lookupScope acc.1 n2 = none) ∨
         (∃ euid esig, p.2 = FuncRef.toExtern euid ∧
            lookupScope acc.1 n2 = some (ScopeVal.externFn euid esig)))) := by
  intro ns
  induction ns with
  | nil =>
    intro acc res h
    have h2 : acc = res := by simpa [resolveAll] using h
    subst h2
    refine ⟨fun n v hv => hv, fun p hp => hp, fun e he => Or.inl he,
      fun p hp => Or.inl hp⟩
  | cons m ms ih =>
    intro acc res h
    simp only [resolveAll] at h
    obtain ⟨acc2, hres, hrest⟩ := bindE_ok h
    rcases acc2 with ⟨o2, m2⟩
    obtain ⟨ihmono, ihmapmono, ihscope, ihmap⟩ := ih (o2, m2) res hrest
    rcases resolveName_ok_cases _ _ _ _ _ _ hres with
      ⟨hstub0, ho2, hm2⟩ | ⟨u0, s0, tl, hstubs, hcase⟩
    · subst ho2 hm2
      refine ⟨ihmono, ihmapmono, ?_, ?_⟩
      · intro e he
        exact ihscope e he
      · intro p hp
        rcases ihmap p hp with h1 | ⟨n2, hn2, s2, hs2, hd⟩
        · exact Or.inl h1
        · exact Or.inr ⟨n2, by simp [hn2], s2, hs2, hd⟩
    · have hone : ∀ n v, lookupScope o2 n = some v →
          lookupScope res.1 n = some v := fun n v hv => ihmono n v hv
      rcases hcase with
        ⟨gsig, gf, gb, hlk, hsigs, ho2, hm2⟩ |
        ⟨euid, esig, hlk, hsigs, ho2, hm2⟩ |
        ⟨hlk, hsigs, ho2, hm2⟩
      · subst ho2 hm2
        refine ⟨ihmono, ?_, ?_, ?_⟩
        · intro p hp
          exact ihmapmono p (by simp [hp])
        · intro e he
          rcases ihscope e he with h1 | ⟨hext, hnone⟩
          · exact Or.inl h1
          · exact Or.inr ⟨hext, hnone⟩
        · intro p hp
          rcases ihmap p hp with h1 | ⟨n2, hn2, s2, hs2, hd⟩
          · rcases List.mem_append.mp h1 with h3 | h3
            · exact Or.inl h3
            · obtain ⟨st2, hsmem, hpeq⟩ := List.mem_map.mp h3
              refine Or.inr ⟨m, by simp, st2.2, ?_, Or.inl ?_⟩
              · rw [← hpeq]
                exact hsmem
              · rw [← hpeq]
          · refine Or.inr ⟨n2, by simp [hn2], s2, hs2, ?_⟩
            rcases hd with h4 | ⟨v0, w0, tl2, hst2, hp2, hn0⟩ |
              ⟨eu, es, hp2, hlk2⟩
            · exact Or.inl h4
            · exact Or.inr (Or.inl ⟨v0, w0, tl2, hst2, hp2, hn0⟩)
            · exact Or.inr (Or.inr ⟨eu, es, hp2, hlk2⟩)
      · subst ho2 hm2
        refine ⟨ihmono, ?_, ?_, ?_⟩
        · intro p hp
          exact ihmapmono p (by simp [hp])
        · intro e he
          exact ihscope e he
        · intro p hp
          rcases ihmap p hp with h1 | ⟨n2, hn2, s2, hs2, hd⟩
          · rcases List.mem_append.mp h1 with h3 | h3
            · exact Or.inl h3
            · obtain ⟨st2, hsmem, hpeq⟩ := List.mem_map.mp h3
              have hsmem2 := List.mem_of_mem_filter hsmem
              refine Or.inr ⟨m, by simp, st2.2, ?_, Or.inr (Or.inr ?_)⟩
              · rw [← hpeq]
                exact hsmem2
              · exact ⟨euid, esig, by rw [← hpeq], hlk⟩
          · refine Or.inr ⟨n2, by simp [hn2], s2, hs2, ?_⟩
            rcases hd with h4 | ⟨v0, w0, tl2, hst2, hp2, hn0⟩ |
              ⟨eu, es, hp2, hlk2⟩
            · exact Or.inl h4
            · exact Or.inr (Or.inl ⟨v0, w0, tl2, hst2, hp2, hn0⟩)
            · exact Or.inr (Or.inr ⟨eu, es, hp2, hlk2⟩)
      · subst ho2 hm2
        have hstep : ∀ n v, lookupScope acc.1 n = some v →
            lookupScope (acc.1 ++ [(m, ScopeVal.externFn u0 s0)]) n
              = some v := by
          intro n v hv
          exact lookupScope_append_some _ _ _ _ hv
        have hstepn : ∀ n v,
            lookupScope (acc.1 ++ [(m, ScopeVal.externFn u0 s0)]) n
              = some v →
            lookupScope acc.1 n = some v ∨
              (n = m ∧ v = ScopeVal.externFn u0 s0) := by
          intro n v hv
          rw [lookupScope_append, lookupScope_single] at hv
          cases hc : lookupScope acc.1 n with
          | some w =>
            rw [hc] at hv
            simp only [Option.or_some] at hv
            exact Or.inl (by rw [hv])
          | none =>
            rw [hc] at hv
            simp only [Option.none_or] at hv
            by_cases hmn : (m == n) = true
            · rw [if_pos hmn] at hv
              right
              have hnm : m = n := by simpa using hmn
              exact ⟨hnm.symm, (Option.some.inj hv).symm⟩
            · rw [if_neg hmn] at hv
              simp at hv
        refine ⟨?_, ?_, ?_, ?_⟩
        · intro n v hv
          exact ihmono n v (hstep n v hv)
        · intro p hp
          exact ihmapmono p (by simp [hp])
        · intro e he
          rcases ihscope e he with h1 | ⟨hext, hnone⟩
          · rcases List.mem_append.mp h1 with h3 | h3
            · exact Or.inl h3
            · have he2 : e = (m, ScopeVal.externFn u0 s0) := by simpa using h3
              refine Or.inr ⟨⟨u0, s0, by rw [he2]⟩, ?_⟩
              rw [he2]
              exact hlk
          · refine Or.inr ⟨hext, ?_⟩
            cases hc : lookupScope acc.1 e.1 with
            | some w =>
              rw [hstep e.1 w hc] at hnone
              cases hnone
            | none => rfl
        · intro p hp
          rcases ihmap p hp with h1 | ⟨n2, hn2, s2, hs2, hd⟩
          · rcases List.mem_append.mp h1 with h3 | h3
            · exact Or.inl h3
            · obtain ⟨st2, hsmem, hpeq⟩ := List.mem_map.mp h3
              have hsmem2 := List.mem_of_mem_filter hsmem
              refine Or.inr ⟨m, by simp, st2.2, ?_, Or.inr (Or.inl ?_)⟩
              · rw [← hpeq]
                exact hsmem2
              · exact ⟨u0, s0, tl, hstubs, by rw [← hpeq], hlk⟩
          · refine Or.inr ⟨n2, by simp [hn2], s2, hs2, ?_⟩
            rcases hd with h4 | ⟨v0, w0, tl2, hst2, hp2, hn0⟩ |
              ⟨eu, es, hp2, hlk2⟩
            · exact Or.inl h4
            · refine Or.inr (Or.inl ⟨v0, w0, tl2, hst2, hp2, ?_⟩)
              cases hc : lookupScope acc.1 n2 with
              | some w =>
                rw [hstep n2 w hc] at hn0
                cases hn0
              | none => rfl
            · rcases hstepn n2 (ScopeVal.externFn eu es) hlk2 with h5 | h5
              · exact Or.inr (Or.inr ⟨eu, es, hp2, h5⟩)
              · obtain ⟨hn2m, hvs⟩ := h5
                subst hn2m
                have hu : eu = u0 :=
                  (ScopeVal.externFn.injEq _ _ _ _).mp hvs |>.1
                refine Or.inr (Or.inl ⟨u0, s0, tl, hstubs, ?_, hlk⟩)
                rw [hp2, hu]

theorem resolveAll_pername (externs : List (String × Nat × Sig)) :
    ∀ (ns : List String)
    (acc res : List (String × ScopeVal) × List (Nat × FuncRef)),
    resolveAll externs ns acc = .ok res → ns.Nodup →
    ∀ n ∈ ns,
    (∀ gsig gf gb,
      lookupScope acc.1 n = some (.genuine gsig gf gb) →
      (∀ s ∈ stubsFor externs n, s.2 = gsig) ∧
      (∀ s ∈ stubsFor externs n, (s.1, FuncRef.toFunc n) ∈ res.2)) ∧
    (∀ id, lookupScope acc.1 n = some (.nonfunc id) →
      stubsFor externs n = []) ∧
    (lookupScope acc.1 n = none →
      ∀ u0 s0 tl, stubsFor externs n = (u0, s0) :: tl →
      (∀ s ∈ stubsFor externs n, s.2 = s0) ∧
      lookupScope res.1 n = some (.externFn u0 s0)) := by
  intro ns
  induction ns with
  | nil =>
    intro acc res _ _ n hn
    cases hn
  | cons m ms ih =>
    intro acc res h hnd n hn
    simp only [resolveAll] at h
    obtain ⟨acc2, hres, hrest⟩ := bindE_ok h
    rcases acc2 with ⟨o2, m2⟩
    have hndtail : ms.Nodup := (List.nodup_cons.mp hnd).2
    have hmnotin : m ∉ ms := (List.nodup_cons.mp hnd).1
    obtain ⟨exmono, exmapmono, _, _⟩ := resolveAll_extends externs ms
      (o2, m2) res hrest
    rcases List.mem_cons.mp hn with hnm | hnms
    · subst hnm
      rcases resolveName_ok_cases _ _ _ _ _ _ hres with
        ⟨hstub0, ho2, hm2⟩ | ⟨u0, s0, tl, hstubs, hcase⟩
      · refine ⟨?_, ?_, ?_⟩
        · intro gsig gf gb _
          rw [hstub0]
          exact ⟨fun s hs => absurd hs (List.not_mem_nil s),
            fun s hs => absurd hs (List.not_mem_nil s)⟩
        · intro id _
          exact hstub0
        · intro _ u0 s0 tl habs
          rw [hstub0] at habs
          cases habs
      · rcases hcase with
          ⟨gsig, gf, gb, hlk, hsigs, ho2, hm2⟩ |
          ⟨euid, esig, hlk, hsigs, ho2, hm2⟩ |
          ⟨hlk, hsigs, ho2, hm2⟩
        · refine ⟨?_, ?_, ?_⟩
          · intro gsig2 gf2 gb2 hlk2
            rw [hlk] at hlk2
            have hinj := Option.some.inj hlk2
            have hg : gsig2 = gsig :=
              ((ScopeVal.genuine.injEq _ _ _ _ _ _).mp hinj).1.symm
            subst hg
            refine ⟨hsigs, ?_⟩
            intro s hs
            apply exmapmono
            rw [hm2]
            exact List.mem_append.mpr (Or.inr
              (List.mem_map.mpr ⟨s, hs, rfl⟩))
          · intro id hlk2
            rw [hlk] at hlk2
            simp at hlk2
          · intro hlk2
            rw [hlk] at hlk2
            cases hlk2
        · refine ⟨?_, ?_, ?_⟩
          · intro gsig2 gf2 gb2 hlk2
            rw [hlk] at hlk2
            simp at hlk2
          · intro id hlk2
            rw [hlk] at hlk2
            simp at hlk2
          · intro hlk2
            rw [hlk] at hlk2
            cases hlk2
        · refine ⟨?_, ?_, ?_⟩
          · intro gsig2 gf2 gb2 hlk2
            rw [hlk] at hlk2
            cases hlk2
          · intro id hlk2
            rw [hlk] at hlk2
            cases hlk2
          · intro _ u1 s1 tl1 hstubs1
            rw [hstubs] at hstubs1
            have h1 := List.cons.injEq _ _ _ _ |>.mp hstubs1
            have hu1 : u0 = u1 := (Prod.mk.injEq _ _ _ _).mp h1.1 |>.1
            have hs1 : s0 = s1 := (Prod.mk.injEq _ _ _ _).mp h1.1 |>.2
            subst hu1 hs1
            refine ⟨hsigs, ?_⟩
            apply exmono
            rw [ho2]
            rw [lookupScope_append_none _ _ _ hlk, lookupScope_single]
            simp
    · have htrans : lookupScope o2 n = lookupScope acc.1 n := by
        rcases resolveName_ok_cases _ _ _ _ _ _ hres with
          ⟨_, ho2, _⟩ | ⟨u0, s0, tl, hstubs, hcase⟩
        · rw [ho2]
        · rcases hcase with
            ⟨_, _, _, _, _, ho2, _⟩ | ⟨_, _, _, _, ho2, _⟩ |
            ⟨hlk, _, ho2, _⟩
          · rw [ho2]
          · rw [ho2]
          · rw [ho2]
            have hne : n ≠ m := fun hc => hmnotin (hc ▸ hnms)
            exact lookupScope_append_single_ne _ _ _ _
              (by simpa using (Ne.symm hne))
      have hspec := ih (o2, m2) res hrest hndtail n hnms
      rw [htrans] at hspec
      exact hspec

/-- The per-value effect of the post-link sweep: only the blocks of
genuine functions are rewritten. -/
def rewriteVal (mapping : List (Nat × FuncRef)) : ScopeVal → ScopeVal
  | .genuine sig fin blocks =>
    .genuine sig fin (blocks.map (fun b => b.map (rewriteRef mapping)))
  | v => v

theorem rewriteScope_eq (mapping : List (Nat × FuncRef))
    (s : List (String × ScopeVal)) :
    rewriteScope mapping s = s.map (fun e => (e.1, rewriteVal mapping e.2)) := by
  induction s with
  | nil => rfl
  | cons e rest ih =>
    rcases e with ⟨n, v⟩
    cases v <;> simp [rewriteScope, rewriteVal] at ih ⊢ <;> exact ih

theorem lookup_rewriteScope (mapping : List (Nat × FuncRef))
    (s : List (String × ScopeVal)) (n : String) :
    lookupScope (rewriteScope mapping s) n =
      (lookupScope s n).map (rewriteVal mapping) := by
  rw [rewriteScope_eq]
  induction s with
  | nil => rfl
  | cons e rest ih =>
    by_cases hn : (e.1 == n) = true
    · simp [lookupScope, List.find?, hn]
    · have hn2 : (e.1 == n) = false := Bool.not_eq_true _ |>.mp hn
      simp only [List.map_cons, lookupScope, List.find?] at ih ⊢
      rw [hn2]
      exact ih

theorem mem_rewriteScope (mapping : List (Nat × FuncRef))
    (s : List (String × ScopeVal)) (e2 : String × ScopeVal) :
    e2 ∈ rewriteScope mapping s ↔
      ∃ e ∈ s, e2 = (e.1, rewriteVal mapping e.2) := by
  rw [rewriteScope_eq]
  simp only [List.mem_map]
  constructor
  · rintro ⟨e, he, hev⟩
    exact ⟨e, he, hev.symm⟩
  · rintro ⟨e, he, hev⟩
    exact ⟨e, he, hev.symm⟩

theorem stub_uid_name_unique (externs : List (String × Nat × Sig))
    (hnd : (externs.map (fun e => e.2.1)).Nodup)
    {n1 n2 : String} {u : Nat} {s1 s2 : Sig}
    (h1 : (u, s1) ∈ stubsFor externs n1)
    (h2 : (u, s2) ∈ stubsFor externs n2) : n1 = n2 ∧ s1 = s2 := by
  rw [stubsFor_mem] at h1 h2
  have heq := List.inj_on_of_nodup_map hnd h1 h2 rfl
  have hn := (Prod.mk.injEq _ _ _ _).mp heq |>.1
  have hrest := (Prod.mk.injEq _ _ _ _).mp heq |>.2
  have hs := (Prod.mk.injEq _ _ _ _).mp hrest |>.2
  exact ⟨hn, hs⟩

theorem initTopScope_no_genuine (nm : String) (sig : Sig) (fin : Bool)
    (blocks : List BlockRefs)
    (h : lookupScope initTopScope nm = some (.genuine sig fin blocks)) :
    False := by
  have hmem := lookupScope_some_mem _ _ _ h
  simp [initTopScope] at hmem

theorem collectUnits_no_extern (tops : List TopLevelU) (st : LinkState)
    (hcol : collectUnits tops ⟨initTopScope, []⟩ = .ok st) :
    ∀ e ∈ st.outScope, ∀ u g, e.2 ≠ ScopeVal.externFn u g := by
  obtain ⟨extra, hex, hprop⟩ := collectUnits_extends _ _ _ hcol
  intro e he u g habs
  rw [hex] at he
  rcases List.mem_append.mp he with h1 | h1
  · have h4 : e.2 = ScopeVal.nonfunc 0 ∨ e.2 = ScopeVal.nonfunc 1 := by
      simp only [initTopScope, List.mem_cons, List.not_mem_nil] at h1
      rcases h1 with h2 | h2 | h2
      · rw [h2]
        exact Or.inl rfl
      · rw [h2]
        exact Or.inr rfl
      · cases h2
    rcases h4 with h3 | h3 <;> rw [h3] at habs <;> cases habs
  · rcases hprop e h1 with ⟨sig2, fin2, blocks2, hg⟩ | ⟨id2, hg⟩
    · rw [habs] at hg
      cases hg
    · rw [habs] at hg
      cases hg

theorem linker_ok_parts (tops : List TopLevelU) (out : TopLevelU)
    (hlen : 2 ≤ tops.length) (hok : linker tops = .ok out) :
    ∃ st acc, collectUnits tops ⟨initTopScope, []⟩ = .ok st ∧
      resolveAll st.externs (firstSeen (st.externs.map (·.1)))
        (st.outScope, []) = .ok acc ∧
      out.scope = rewriteScope acc.2 acc.1 := by
  match tops with
  | [] => cases hlen
  | [t] => simp at hlen
  | a :: b :: rest =>
    simp only [linker] at hok
    obtain ⟨st, hcol, hok2⟩ := bindE_ok hok
    obtain ⟨acc, hres, hok3⟩ := bindE_ok hok2
    refine ⟨st, acc, hcol, hres, ?_⟩
    simp only [TopLevelU.endUnit] at hok3
    by_cases hall : (rewriteScope acc.2 acc.1).all
        (fun e => e.2.visibleFinished) = true
    · rw [if_neg (by simp), if_pos hall] at hok3
      have := Except.ok.inj hok3
      rw [← this]
    · rw [if_neg (by simp), if_neg (by simp [hall])] at hok3
      cases hok3

/-- C4: for a successful link of two or more finished units (extern stub
identities pairwise distinct): for every name genuinely defined by some
unit, the merged unit holds that genuine definition, no extern entry under
that name survives, every deferred stub for it shares its signature, the
sweep substitution sends each of its stub references to the genuine
definition, and no block of the merged unit still holds a reference to one
of its stubs; for every name with stubs but no genuine definition, all
stubs share the first stub signature (a mismatch fails the link) and the
first stub is kept as the single representative in the merged scope. -/
theorem linker_extern_resolution (tops : List TopLevelU) (out : TopLevelU)
    (hlen : 2 ≤ tops.length)
    (hnd : ((externsOfUnits tops).map (fun e => e.2.1)).Nodup)
    (hok : linker tops = .ok out) :
    ∃ σ : FuncRef → FuncRef,
      (∀ u ∈ tops, ∀ nm gsig gfin gblocks,
        (nm, ScopeVal.genuine gsig gfin gblocks) ∈ u.scope →
        lookupScope out.scope nm =
          some (.genuine gsig gfin (gblocks.map (fun b => b.map σ))) ∧
        (∀ e ∈ out.scope, e.1 = nm → ∀ u2 s2, e.2 ≠ .externFn u2 s2) ∧
        (∀ s ∈ stubsFor (externsOfUnits tops) nm,
          s.2 = gsig ∧ σ (.toExtern s.1) = .toFunc nm) ∧
        (∀ e ∈ out.scope, ∀ sig2 fin2 blocks2,
          e.2 = ScopeVal.genuine sig2 fin2 blocks2 →
          ∀ b ∈ blocks2, ∀ s ∈ stubsFor (externsOfUnits tops) nm,
            FuncRef.toExtern s.1 ∉ b)) ∧
      (∀ nm u0 s0 tl,
        stubsFor (externsOfUnits tops) nm = (u0, s0) :: tl →
        (∀ u ∈ tops, ∀ gsig gfin gblocks,
          (nm, ScopeVal.genuine gsig gfin gblocks) ∉ u.scope) →
        (∀ s ∈ stubsFor (externsOfUnits tops) nm, s.2 = s0) ∧
        lookupScope out.scope nm = some (.externFn u0 s0)) := by
  obtain ⟨st, acc, hcol, hres, hout⟩ := linker_ok_parts tops out hlen hok
  have hext : st.externs = externsOfUnits tops := by
    have h1 := collectUnits_externs tops _ _ hcol
    simpa using h1
  rw [hext] at hres
  have hnames_nodup := firstSeen_nodup ((externsOfUnits tops).map (·.1))
  obtain ⟨rmono, rmapmono, rscope, rmap⟩ :=
    resolveAll_extends (externsOfUnits tops)
      (firstSeen ((externsOfUnits tops).map (·.1))) (st.outScope, []) acc hres
  have hnoext := collectUnits_no_extern tops st hcol
  refine ⟨rewriteRef acc.2, ?_, ?_⟩
  · intro u hu nm gsig gfin gblocks hmem
    have hstlk := collectUnits_genuine tops _ _ hcol u hu nm gsig gfin
      gblocks hmem
    have hacc1 : lookupScope acc.1 nm = some (.genuine gsig gfin gblocks) :=
      rmono nm _ hstlk
    have hA1 : lookupScope out.scope nm =
        some (.genuine gsig gfin
          (gblocks.map (fun b => b.map (rewriteRef acc.2)))) := by
      rw [hout, lookup_rewriteScope, hacc1]
      rfl
    have hA3 : ∀ s ∈ stubsFor (externsOfUnits tops) nm,
        s.2 = gsig ∧ rewriteRef acc.2 (.toExtern s.1) = .toFunc nm := by
      intro s hs
      have hsfull : (s.1, s.2) ∈ stubsFor (externsOfUnits tops) nm := hs
      have hnm_names : nm ∈ firstSeen ((externsOfUnits tops).map (·.1)) := by
        rw [firstSeen_mem]
        rw [← stubsFor_ne_nil_iff]
        intro hnil
        rw [hnil] at hs
        cases hs
      have hper := resolveAll_pername (externsOfUnits tops) _
        (st.outScope, []) acc hres hnames_nodup nm hnm_names
      obtain ⟨hsigs, hmaps⟩ := hper.1 gsig gfin gblocks hstlk
      refine ⟨hsigs s hs, ?_⟩
      have hmem2 : (s.1, FuncRef.toFunc nm) ∈ acc.2 := hmaps s hs
      cases hf : (acc.2).find? (fun e => e.1 == s.1) with
      | none =>
        have hfind : ((acc.2).find? (fun e => e.1 == s.1)).isSome :=
          List.find?_isSome.mpr ⟨(s.1, .toFunc nm), hmem2, by simp⟩
        rw [hf] at hfind
        cases hfind
      | some p =>
        have hpmem := List.mem_of_find?_eq_some hf
        have hpk : p.1 = s.1 := by simpa using List.find?_some hf
        rcases rmap p hpmem with h0 | ⟨n2, hn2, s2, hs2, hd⟩
        · cases h0
        · rw [hpk] at hs2
          have hnn := stub_uid_name_unique (externsOfUnits tops) hnd hs2 hsfull
          rcases hd with hd1 | ⟨u0, s0, tl2, hst2, hp2, hn0⟩ |
            ⟨eu, es, hp2, hlk2⟩
          · simp [rewriteRef, hf, hd1, hnn.1]
          · rw [hnn.1] at hn0
            rw [hstlk] at hn0
            cases hn0
          · have hmem3 := lookupScope_some_mem _ _ _ hlk2
            exact absurd rfl (hnoext _ hmem3 eu es)
    have hA2 : ∀ e ∈ out.scope, e.1 = nm → ∀ u2 s2,
        e.2 ≠ ScopeVal.externFn u2 s2 := by
      intro e he h1 u2 s2 habs
      rw [hout] at he
      obtain ⟨e0, he0, he2⟩ := (mem_rewriteScope _ _ _).mp he
      have he02 : e0.2 = ScopeVal.externFn u2 s2 := by
        rw [he2] at habs
        cases h0 : e0.2 with
        | genuine a b c =>
          rw [h0] at habs
          simp [rewriteVal] at habs
        | externFn a b =>
          rw [h0] at habs
          simp only [rewriteVal] at habs
          exact habs
        | nonfunc a =>
          rw [h0] at habs
          simp [rewriteVal] at habs
      rcases rscope e0 he0 with h3 | ⟨_, hnone⟩
      · exact hnoext e0 h3 u2 s2 he02
      · have h5 : e0.1 = nm := by
          rw [he2] at h1
          exact h1
        rw [h5] at hnone
        rw [hstlk] at hnone
        cases hnone
    have hA4 : ∀ e ∈ out.scope, ∀ sig2 fin2 blocks2,
        e.2 = ScopeVal.genuine sig2 fin2 blocks2 →
        ∀ b ∈ blocks2, ∀ s ∈ stubsFor (externsOfUnits tops) nm,
          FuncRef.toExtern s.1 ∉ b := by
      intro e he sig2 fin2 blocks2 hge b hb s hs habs
      have hsfull : (s.1, s.2) ∈ stubsFor (externsOfUnits tops) nm := hs
      rw [hout] at he
      obtain ⟨e0, he0, he2⟩ := (mem_rewriteScope _ _ _).mp he
      have hsplit : ∃ blocks0, e0.2 = ScopeVal.genuine sig2 fin2 blocks0 ∧
          blocks2 = blocks0.map (fun b0 => b0.map (rewriteRef acc.2)) := by
        rw [he2] at hge
        cases h0 : e0.2 with
        | genuine a bb c =>
          rw [h0] at hge
          simp only [rewriteVal] at hge
          have h1 := (ScopeVal.genuine.injEq _ _ _ _ _ _).mp hge
          exact ⟨c, by rw [h1.1, h1.2.1], h1.2.2.symm⟩
        | externFn a bb =>
          rw [h0] at hge
          simp [rewriteVal] at hge
        | nonfunc a =>
          rw [h0] at hge
          simp [rewriteVal] at hge
      obtain ⟨blocks0, hgen0, hb2⟩ := hsplit
      rw [hb2] at hb
      obtain ⟨b0, hb0, hbeq⟩ := List.mem_map.mp hb
      rw [← hbeq] at habs
      obtain ⟨r0, hr0, hreq⟩ := List.mem_map.mp habs
      cases r0 with
      | toFunc f => simp [rewriteRef] at hreq
      | noRef => simp [rewriteRef] at hreq
      | toExtern uu =>
        cases hf : (acc.2).find? (fun e => e.1 == uu) with
        | none =>
          have huv : uu = s.1 := by
            simpa [rewriteRef, hf] using hreq
          have h6 := (hA3 s hs).2
          rw [← huv] at h6
          simp [rewriteRef, hf] at h6
        | some p =>
          have hpmem := List.mem_of_find?_eq_some hf
          have hval : rewriteRef acc.2 (.toExtern uu) = p.2 := by
            simp [rewriteRef, hf]
          rw [hval] at hreq
          rcases rmap p hpmem with h0 | ⟨n2, hn2, s2, hs2, hd⟩
          · cases h0
          · rcases hd with hd1 | ⟨u0, s0, tl2, hst2, hp2, hn0⟩ |
              ⟨eu, es, hp2, hlk2⟩
            · rw [hd1] at hreq
              cases hreq
            · rw [hp2] at hreq
              have hu0 : u0 = s.1 :=
                ((FuncRef.toExtern.injEq _ _).mp hreq)
              have hhead : (u0, s0) ∈ stubsFor (externsOfUnits tops) n2 := by
                rw [hst2]
                exact List.mem_cons_self _ _
              rw [hu0] at hhead
              have hnn := stub_uid_name_unique (externsOfUnits tops) hnd
                hhead hsfull
              rw [hnn.1] at hn0
              rw [hstlk] at hn0
              cases hn0
            · have hmem3 := lookupScope_some_mem _ _ _ hlk2
              exact absurd rfl (hnoext _ hmem3 eu es)
    exact ⟨hA1, hA2, hA3, hA4⟩
  · intro nm u0 s0 tl hstubs hnog
    have hnm_names : nm ∈ firstSeen ((externsOfUnits tops).map (·.1)) := by
      rw [firstSeen_mem]
      rw [← stubsFor_ne_nil_iff]
      rw [hstubs]
      simp
    have hper := resolveAll_pername (externsOfUnits tops) _
      (st.outScope, []) acc hres hnames_nodup nm hnm_names
    have hB0 : lookupScope st.outScope nm = none := by
      cases hl : lookupScope st.outScope nm with
      | none => rfl
      | some v =>
        cases v with
        | genuine a b c =>
          rcases collectUnits_genuine_source tops _ _ hcol nm a b c hl with
            h1 | ⟨u, hu, hmem⟩
          · exact absurd h1 (fun h2 => initTopScope_no_genuine nm a b c h2)
          · exact absurd hmem (hnog u hu a b c)
        | externFn a b =>
          exact absurd rfl (hnoext _ (lookupScope_some_mem _ _ _ hl) a b)
        | nonfunc id =>
          have h2 := hper.2.1 id hl
          rw [hstubs] at h2
          cases h2
    obtain ⟨hsigs, hlkacc⟩ := hper.2.2 hB0 u0 s0 tl hstubs
    refine ⟨hsigs, ?_⟩
    rw [hout, lookup_rewriteScope, hlkacc]
    rfl

/-- Signature of the exported function in the link example. -/
def exLinkSig : Sig := ⟨[(VarType.i32, PassType.byval)], [VarType.i32]⟩

/-- A unit genuinely defining f. -/
def exUnitA : TopLevelU :=
  ⟨[("f", .genuine exLinkSig true [[FuncRef.noRef]])], true⟩

/-- A unit importing f as an extern stub (identity 5) and calling it from
a function caller. -/
def exUnitB : TopLevelU :=
  ⟨[("f", .externFn 5 exLinkSig),
    ("caller", .genuine ⟨[], []⟩ true [[FuncRef.toExtern 5]])], true⟩

/-- The merged unit the linker produces for the example. -/
def exLinkOut : TopLevelU :=
  ⟨[("pos_util", .nonfunc 0), ("_global_entity", .nonfunc 1),
    ("f", .genuine exLinkSig true [[FuncRef.noRef]]),
    ("caller", .genuine ⟨[], []⟩ true [[FuncRef.toFunc "f"]])], true⟩

/-- Witness for C4 at concrete inputs: linking the two example units
succeeds, the genuine f survives under its name, and no extern entry named
f remains in the merged unit. -/
theorem linker_extern_resolution_witness :
    ∃ σ, linker [exUnitA, exUnitB] = .ok exLinkOut ∧
      lookupScope exLinkOut.scope "f" =
        some (.genuine exLinkSig true
          ([[FuncRef.noRef]].map (fun b => b.map σ))) ∧
      (∀ e ∈ exLinkOut.scope, e.1 = "f" → ∀ u2 s2,
        e.2 ≠ ScopeVal.externFn u2 s2) := by
  have hok : linker [exUnitA, exUnitB] = .ok exLinkOut := by rfl
  obtain ⟨σ, hA, _⟩ := linker_extern_resolution [exUnitA, exUnitB] exLinkOut
    (by decide) (by decide) hok
  have h1 := hA exUnitA (by simp) "f" exLinkSig true [[FuncRef.noRef]]
    (by simp [exUnitA])
  exact ⟨σ, hok, h1.1, h1.2.1⟩

end CmdIr
